import Mathlib

/-!
# tracklist2cue — verification of the spec against the source

Shallow embedding of `src/tracklist2cue.ts` and `src/cue2mp3.ts`
(a tracklist→CUE converter and a CUE-driven MP3 splitter).

JavaScript strings are modelled as `List Char` (`Str`), and the JS string
builtins used by the source (`split`, `trim`, `trimEnd`, `replace`,
`replaceAll`, `padStart`, `String(n)`) are modelled by structural
(fuel-based where needed) Lean functions so that everything evaluates by
kernel reduction.  JS numbers are modelled as `ℚ` (the source only performs
exact arithmetic on times: `+ - * / % floor round`), and `Math.floor`,
`Math.round` and float `%` are modelled by their exact rational
counterparts.
-/

set_option maxRecDepth 20000

/-- JS strings, modelled as lists of characters. -/
abbrev Str := List Char

/-- Coerce a Lean string literal to the `Str` model. -/
def str (s : String) : Str := s.toList

/-- The whitespace class used by JS `trim`/`trimEnd` and the regex `\s`
(ASCII part plus NBSP and BOM; other exotic Unicode spaces do not occur in
the inputs this development manipulates). -/
def jsWsB (c : Char) : Bool :=
  c == ' ' || c == '\t' || c == '\n' || c == '\r' || c == '\x0b' ||
  c == '\x0c' || c == '\xa0' || c == Char.ofNat 0xfeff

/-- JS `String.prototype.trimStart`. -/
def trimStartStr (s : Str) : Str := s.dropWhile jsWsB

/-- JS `String.prototype.trimEnd`. -/
def trimEndStr (s : Str) : Str := (s.reverse.dropWhile jsWsB).reverse

/-- JS `String.prototype.trim`. -/
def trimStr (s : Str) : Str := trimEndStr (trimStartStr s)

/-- Fuel-based worker for JS `String.prototype.split` with a non-empty
separator: scan left to right, emitting the accumulated chunk (kept in
reverse) whenever the separator occurs.  The fuel is one unit per consumed
character; `jsSplit` supplies enough fuel that the `0` case is never hit. -/
def jsSplitGo (sep : Str) : ℕ → Str → Str → List Str
  | _, [], acc => [acc.reverse]
  | 0, rest, acc => [acc.reverse ++ rest]
  | fuel + 1, c :: cs, acc =>
    if sep.isPrefixOf (c :: cs) then
      acc.reverse :: jsSplitGo sep fuel (List.drop sep.length (c :: cs)) []
    else
      jsSplitGo sep fuel cs (c :: acc)

/-- JS `value.split(sep)`.  An empty separator splits into single
characters (never exercised by the source, which always passes non-empty
separators). -/
def jsSplit (sep s : Str) : List Str :=
  if sep = [] then s.map (fun c => [c]) else jsSplitGo sep s.length s []

/-- JS `Array.prototype.join(sep)` on an array of strings. -/
def jsJoin (sep : Str) : List Str → Str
  | [] => []
  | [x] => x
  | x :: xs => x ++ sep ++ jsJoin sep xs

/-- JS `s.replace(pat, '')` with a string pattern: remove the FIRST
occurrence of `pat` (JS `replace` with a string only replaces the first
match).  Modelled through `jsSplit`, which finds the leftmost
occurrences. -/
def jsReplaceFirst (s pat repl : Str) : Str :=
  match jsSplit pat s with
  | [] => s
  | [_] => s
  | chunk :: rest => chunk ++ repl ++ jsJoin pat rest

/-- JS `String.prototype.padStart(len, c)`. -/
def jsPadStart (s : Str) (len : ℕ) (c : Char) : Str :=
  List.replicate (len - s.length) c ++ s

/-- Decimal digit to character (the digits produced by JS `String(n)`). -/
def digitChar : ℕ → Char
  | 0 => '0' | 1 => '1' | 2 => '2' | 3 => '3' | 4 => '4'
  | 5 => '5' | 6 => '6' | 7 => '7' | 8 => '8' | _ => '9'

/-- Fuel-based decimal printer worker (most significant digit first,
prepending onto `acc`). -/
def natToCharsGo : ℕ → ℕ → Str → Str
  | 0, _, acc => acc
  | fuel + 1, n, acc =>
    if n < 10 then digitChar n :: acc
    else natToCharsGo fuel (n / 10) (digitChar (n % 10) :: acc)

/-- JS `String(n)` for a non-negative integer value. -/
def natToChars (n : ℕ) : Str := natToCharsGo (n + 1) n []

/-- JS `String(i)` for an integral JS number. -/
def intToChars (i : ℤ) : Str :=
  if i < 0 then '-' :: natToChars i.natAbs else natToChars i.toNat

/-- Parse a non-empty all-digit string as a decimal natural (the fragment
of number parsing the CUE grammar needs for track numbers and index
times). -/
def parseNatQ (s : Str) : Option ℕ :=
  if s ≠ [] ∧ s.all Char.isDigit then
    some (s.foldl (fun acc c => acc * 10 + (c.toNat - 48)) 0)
  else none

/-! ## Tracklist parser (`parseTracklist`, `after` in the source) -/

/-- `interface Track` of the source: one parsed tracklist line. -/
structure Track where
  timestamp : Str
  artist : Str
  title : Str
deriving DecidableEq, Repr

/-- `after(value, delimiter)` from the source:

```ts
export function after(value: string, delimiter: string): string {
  value = value || ''
  if (value === '') { return value }
  const substrings = value.split(delimiter)
  return substrings.length === 1
    ? value // delimiter is not part of the string
    : substrings.slice(1).join(delimiter)
}
``` -/
def after (value delimiter : Str) : Str :=
  if value = [] then value
  else
    match jsSplit delimiter value with
    | [] => value
    | [_] => value
    | _ :: rest => jsJoin delimiter rest

/-- The timestamp token of a tracklist line:
`line.split(' ').at(0) || '0:00'` (an empty first token is falsy in JS and
falls back to `'0:00'`). -/
def timestampOf (line : Str) : Str :=
  let t := (jsSplit (str " ") line).headD []
  if t = [] then str "0:00" else t

/-- The remainder of a tracklist line after its timestamp token:
`after(line, timestamp + ' ').replaceAll('\r', '')` (removing every
carriage return; `replaceAll` of a single character with `''` is exactly a
filter). -/
def withoutTimestampOf (line : Str) : Str :=
  (after line (timestampOf line ++ [' '])).filter (fun c => c ≠ '\r')

/-- One line of `parseTracklist`'s `.map((line, index) => ...)` callback. -/
def parseLine (index : ℕ) (line : Str) : Track :=
  let timestamp := timestampOf line
  let withoutTimestamp := withoutTimestampOf line
  let title := after withoutTimestamp (str " - ")
  let artist := jsReplaceFirst withoutTimestamp (str " - " ++ title) []
  { timestamp := if index = 0 then str "00:00" else timestamp
    artist := artist
    title := title }

/-- `parseTracklist` from the source:
`tracklist.trim().split('\n').map((line, index) => ...)`. -/
def parseTracklist (tracklist : Str) : List Track :=
  (jsSplit (str "\n") (trimStr tracklist)).mapIdx parseLine

/-! ## CUE serializer (`timeToFrames`, `generateCueFileContent`) -/

/-- `timeToFrames` from the source: textually append a zero frame field. -/
def timeToFrames (time : Str) : Str := time ++ str ":00"

/-- One iteration of `generateCueFileContent`'s loop: the four lines
appended for track `i` (0-based). -/
def trackBlock (i : ℕ) (track : Track) : Str :=
  str "\tTRACK " ++ jsPadStart (natToChars (i + 1)) 2 '0' ++ str " AUDIO\n" ++
  str "\t\tTITLE \"" ++ track.title ++ str "\"\n" ++
  str "\t\tPERFORMER \"" ++ track.artist ++ str "\"\n" ++
  str "\t\tINDEX 01 " ++ timeToFrames track.timestamp ++ str "\n"

/-- The source's `for (let i = 0; ...)` accumulation, with the loop index
made explicit. -/
def tracksBlocks : ℕ → List Track → Str
  | _, [] => []
  | i, track :: rest => trackBlock i track ++ tracksBlocks (i + 1) rest

/-- `generateCueFileContent` from the source: header, one block per track,
then `cueContent.trimEnd() + '\n'`. -/
def generateCueFileContent (tracks : List Track) (albumTitle filename : Str) : Str :=
  trimEndStr
    (str "TITLE \"" ++ albumTitle ++ str "\"\n" ++
     str "FILE \"" ++ filename ++ str "\" MP3\n" ++
     tracksBlocks 0 tracks) ++ str "\n"

/-! ## The external CUE grammar parser (collaborator), modelled -/

/-- `MM:SS:FF` index time as delivered by the external CUE parser. -/
structure CueTime where
  min : ℕ
  sec : ℕ
  frame : ℕ
deriving DecidableEq, Repr

/-- One `INDEX` entry of a parsed CUE track. -/
structure CueIndex where
  number : ℕ
  time : CueTime
deriving DecidableEq, Repr

/-- One `TRACK` of a parsed CUE sheet (fields the source reads:
`number`, `title`, `performer`, `indexes`; `title`/`performer` may be
absent in general CUE input, hence `Option`). -/
structure CueParsedTrack where
  number : ℕ
  title : Option Str
  performer : Option Str
  indexes : List CueIndex
deriving DecidableEq, Repr

/-- One `FILE` entry of a parsed CUE sheet. -/
structure CueFileEntry where
  name : Str
  tracks : List CueParsedTrack
deriving DecidableEq, Repr

/-- The structured result of the external CUE grammar parser. -/
structure CueSheet where
  title : Option Str
  performer : Option Str
  files : List CueFileEntry
deriving DecidableEq, Repr

/-- Read a `"`-delimited string at the head of `l`; return the content and
the remainder after the closing quote. -/
def parseQuoted : Str → Option (Str × Str)
  | '"' :: rest =>
    match rest.dropWhile (fun c => c != '"') with
    | '"' :: rem => some (rest.takeWhile (fun c => c != '"'), rem)
    | _ => none
  | _ => none

/-- Modelled from the spec: parse a `TITLE "..."` line of the CUE grammar
(§4.3); leading indentation is insignificant. -/
def parseTitleLine (l : Str) : Option Str :=
  let t := trimStartStr l
  if (str "TITLE ").isPrefixOf t then
    match parseQuoted (t.drop 6) with
    | some (content, rem) => if rem = [] then some content else none
    | none => none
  else none

/-- Modelled from the spec: parse a `PERFORMER "..."` line (§4.3). -/
def parsePerformerLine (l : Str) : Option Str :=
  let t := trimStartStr l
  if (str "PERFORMER ").isPrefixOf t then
    match parseQuoted (t.drop 10) with
    | some (content, rem) => if rem = [] then some content else none
    | none => none
  else none

/-- Modelled from the spec: parse a `FILE "..." <TYPE>` line (§4.3); the
audio type token after the closing quote is not interpreted. -/
def parseFileLine (l : Str) : Option Str :=
  let t := trimStartStr l
  if (str "FILE ").isPrefixOf t then
    match parseQuoted (t.drop 5) with
    | some (content, _) => some content
    | none => none
  else none

/-- Modelled from the spec: parse a `TRACK nn AUDIO` line (§4.3). -/
def parseTrackLine (l : Str) : Option ℕ :=
  let t := trimStartStr l
  if (str "TRACK ").isPrefixOf t then
    let rest := t.drop 6
    match parseNatQ (rest.takeWhile (fun c => c != ' ')) with
    | some n =>
      if rest.dropWhile (fun c => c != ' ') = str " AUDIO" then some n else none
    | none => none
  else none

/-- Modelled from the spec: parse an `INDEX nn MM:SS:FF` line (§4.3). -/
def parseIndexLine (l : Str) : Option CueIndex :=
  let t := trimStartStr l
  if (str "INDEX ").isPrefixOf t then
    let rest := t.drop 6
    match parseNatQ (rest.takeWhile (fun c => c != ' ')) with
    | some n =>
      match rest.dropWhile (fun c => c != ' ') with
      | ' ' :: timeStr =>
        match jsSplit (str ":") timeStr with
        | [mS, sS, fS] =>
          match parseNatQ mS, parseNatQ sS, parseNatQ fS with
          | some m, some s, some f => some ⟨n, ⟨m, s, f⟩⟩
          | _, _, _ => none
        | _ => none
      | _ => none
    | none => none
  else none

/-- Modelled from the spec: the track section of the CUE grammar emitted
by §4.3 — a sequence of 4-line blocks `TRACK / TITLE / PERFORMER /
INDEX`. -/
def parseTrackBlocks : List Str → Option (List CueParsedTrack)
  | [] => some []
  | l1 :: l2 :: l3 :: l4 :: rest =>
    match parseTrackLine l1, parseTitleLine l2, parsePerformerLine l3,
          parseIndexLine l4, parseTrackBlocks rest with
    | some n, some t, some p, some idx, some more =>
      some (⟨n, some t, some p, [idx]⟩ :: more)
    | _, _, _, _, _ => none
  | _ => none

/-- Modelled from the spec: the external `cue-parser` collaborator
(§4.4/§6), restricted to the grammar of §4.3 that `generateCueFileContent`
emits — a sheet `TITLE`, one `FILE`, and per-track 4-line blocks.  Blank
lines are insignificant. -/
def cueParserParse (text : Str) : Option CueSheet :=
  match (jsSplit (str "\n") text).filter (fun l => !l.isEmpty) with
  | titleLine :: fileLine :: rest =>
    match parseTitleLine titleLine, parseFileLine fileLine,
          parseTrackBlocks rest with
    | some t, some f, some trs =>
      some ⟨some t, none, [⟨f, trs⟩]⟩
    | _, _, _ => none
  | _ => none

/-! ## CUE parsing adapter (`cueTimeToSeconds`, `parseCueFile`) -/

/-- `cueTimeToSeconds` from the source:
`min * 60 + sec + frame / 75`. -/
def cueTimeToSeconds (t : CueTime) : ℚ :=
  (t.min : ℚ) * 60 + (t.sec : ℚ) + (t.frame : ℚ) / 75

/-- `interface CueTrack` of the source, as actually populated by
`parseCueFile`'s `.map` (the declared `artist` field is never assigned
there and is omitted). -/
structure CueTrack where
  trackNumber : ℕ
  title : Option Str
  trackName : Option Str
  performer : Str
  startTimeSeconds : ℚ
deriving DecidableEq, Repr

/-- `interface ParsedCueFile` of the source. -/
structure ParsedCueFile where
  title : Option Str
  performer : Option Str
  audioFileName : Str
  tracks : List CueTrack
deriving DecidableEq, Repr

/-- JS `v || d` on a possibly-undefined string (`undefined` and `''` are
falsy). -/
def jsOrStr (v : Option Str) (d : Str) : Str :=
  match v with
  | none => d
  | some s => if s = [] then d else s

/-- The comparison used by the source's
`tracks.sort((a, b) => a.startTimeSeconds - b.startTimeSeconds)`. -/
def trackLE (a b : CueTrack) : Prop :=
  a.startTimeSeconds ≤ b.startTimeSeconds

instance : DecidableRel trackLE := fun a b =>
  inferInstanceAs (Decidable (a.startTimeSeconds ≤ b.startTimeSeconds))

instance : IsTotal CueTrack trackLE :=
  ⟨fun a b => le_total a.startTimeSeconds b.startTimeSeconds⟩

instance : IsTrans CueTrack trackLE :=
  ⟨fun _ _ _ h1 h2 => le_trans h1 h2⟩

/-- The structure-level part of `parseCueFile` (everything after the
external `cue-parser.parse` call, source lines 182–231): validate that a
file entry with tracks exists, keep the first `FILE` entry, map each of
its tracks through the `INDEX 01` lookup (tracks without one are skipped
with a warning), default a falsy performer to `"Unknown Artist"`, and sort
ascending by converted start time.  `List.insertionSort` models JS's
stable `Array.prototype.sort`. -/
def parseCueSheet (sheet : CueSheet) : Except Str ParsedCueFile :=
  match sheet.files with
  | [] => .error (str "No file entries found in CUE sheet")
  | audioFileEntry :: _ =>
    if audioFileEntry.tracks = [] then
      .error (str "No tracks found for audio file")
    else
      let tracks : List CueTrack := audioFileEntry.tracks.filterMap fun track =>
        match track.indexes.find? (fun idx => idx.number == 1) with
        | none => none
        | some index01 =>
          some { trackNumber := track.number
                 trackName := track.title
                 title := track.title
                 performer := jsOrStr track.performer (str "Unknown Artist")
                 startTimeSeconds := cueTimeToSeconds index01.time }
      .ok { title := sheet.title
            performer := sheet.performer
            audioFileName := audioFileEntry.name
            tracks := List.insertionSort trackLE tracks }

/-- `parseCueFile` on file contents: the external grammar parser followed
by the adapter.  (The source first checks that the CUE file exists and
wraps `cue-parser` failures in an error; here the file's text is the
input, and a grammar failure is the corresponding error.) -/
def parseCueFileText (text : Str) : Except Str ParsedCueFile :=
  match cueParserParse text with
  | none => .error (str "Error parsing CUE file with cue-parser")
  | some sheet => parseCueSheet sheet

/-! ## Segment planner (`splitMp3WithCue`, source lines 336–368) -/

/-- The window/skip loop of `splitMp3WithCue`: for each track, the window
runs from its `startTimeSeconds` to the next track's `startTimeSeconds`
(or to the probed total duration for the last track); a window with
`startTime >= endTime` is skipped (`continue`), otherwise the track and
its window are emitted (one extraction request each, in order). -/
def splitSegments (totalDuration : ℚ) : List CueTrack → List (CueTrack × ℚ × ℚ)
  | [] => []
  | currentTrack :: rest =>
    let startTime := currentTrack.startTimeSeconds
    let endTime :=
      match rest with
      | [] => totalDuration
      | nextTrack :: _ => nextTrack.startTimeSeconds
    if startTime ≥ endTime then splitSegments totalDuration rest
    else (currentTrack, startTime, endTime) :: splitSegments totalDuration rest

/-- Specification-side description of the per-track windows (§3
`ParsedSegmentPlan`): pair every track with the next track's start time,
the last one with the total duration. -/
def specAllWindows (tracks : List CueTrack) (totalDuration : ℚ) :
    List (CueTrack × ℚ × ℚ) :=
  (tracks.zip ((tracks.map CueTrack.startTimeSeconds).drop 1 ++ [totalDuration])).map
    fun p => (p.1, p.1.startTimeSeconds, p.2)

/-! ## Filename sanitization (`splitMp3WithCue`, source lines 352–365) -/

/-- The character class kept by
`.replace(/[^a-zA-Z0-9\s\-_.]/g, '')`. -/
def sanitizeKeep (c : Char) : Bool :=
  ('a' ≤ c && c ≤ 'z') || ('A' ≤ c && c ≤ 'Z') || ('0' ≤ c && c ≤ '9') ||
  jsWsB c || c == '-' || c == '_' || c == '.'

/-- `.replace(/\s+/g, ' ')`: every maximal run of whitespace becomes one
space (of a run, only the last character survives, as `' '`). -/
def collapseWs : Str → Str
  | [] => []
  | [c] => if jsWsB c then [' '] else [c]
  | c1 :: c2 :: cs =>
    if jsWsB c1 && jsWsB c2 then collapseWs (c2 :: cs)
    else (if jsWsB c1 then ' ' else c1) :: collapseWs (c2 :: cs)

/-- The sanitization applied to track titles and performers for output
filenames: strip disallowed characters, collapse whitespace runs, trim. -/
def sanitize (s : Str) : Str :=
  trimStr (collapseWs (s.filter sanitizeKeep))

/-! ## `formatTime` (source lines 127–142) -/

/-- JS float truncation (`Math.trunc`, implicit in float `%`): round
toward zero. -/
def ratTrunc (q : ℚ) : ℤ := if q < 0 then ⌈q⌉ else ⌊q⌋

/-- JS float remainder `a % b` (sign of the dividend):
`a - b * trunc(a / b)`. -/
def jsMod (a b : ℚ) : ℚ := a - b * (ratTrunc (a / b) : ℚ)

/-- JS `Math.round`: half-up, `⌊x + 1/2⌋`. -/
def jsRound (q : ℚ) : ℤ := ⌊q + 1 / 2⌋

/-- `formatTime` from the source. -/
def formatTime (seconds : ℚ) : Str :=
  let hours : ℤ := ⌊seconds / 3600⌋
  let seconds1 : ℚ := jsMod seconds 3600
  let minutes : ℤ := ⌊seconds1 / 60⌋
  let remainingSeconds : ℚ := jsMod seconds1 60
  let hh := jsPadStart (intToChars hours) 2 '0'
  let mm := jsPadStart (intToChars minutes) 2 '0'
  let ss := jsPadStart (intToChars ⌊remainingSeconds⌋) 2 '0'
  let ms := jsPadStart
    (intToChars (jsRound ((remainingSeconds - (⌊remainingSeconds⌋ : ℚ)) * 1000))) 3 '0'
  hh ++ str ":" ++ mm ++ str ":" ++ ss ++ str "." ++ ms

/-! ## Filesystem model and `convertTracklistToCue` -/

/-- A Node filesystem error, as relevant here: `ENOENT` carrying the
offending path. -/
inductive FsError where
  | enoent (path : Str)
deriving DecidableEq, Repr

/-- The filesystem, modelled as an association list from paths to text
contents (later writes shadow earlier entries). -/
structure FS where
  entries : List (Str × Str)
deriving DecidableEq, Repr

/-- `readFile`: the content, or `ENOENT` with the path. -/
def FS.read (fs : FS) (p : Str) : Except FsError Str :=
  match fs.entries.find? (fun e => e.1 == p) with
  | some e => .ok e.2
  | none => .error (.enoent p)

/-- `writeFile` (modelled as always succeeding). -/
def FS.write (fs : FS) (p c : Str) : FS := ⟨(p, c) :: fs.entries⟩

/-- What a call to `convertTracklistToCue` does: the filesystem
afterwards, how the returned promise settles (`.ok ()` = resolves), and
the error printed by its `catch` block, if any. -/
structure ConvertResult where
  fs : FS
  outcome : Except FsError Unit
  logged : Option FsError
deriving Repr

/-- `convertTracklistToCue` from the source (lines 507–526): read the
tracklist, parse, serialize, write — all inside a `try` whose `catch`
only logs the error (`console.error('Error processing files:', error)`),
so the returned promise resolves either way. -/
def convertTracklistToCue (fs : FS)
    (inputFilePath outputFilePath albumTitle audioFilename : Str) :
    ConvertResult :=
  match fs.read inputFilePath with
  | .error e => ⟨fs, .ok (), some e⟩
  | .ok tracklistContent =>
    ⟨fs.write outputFilePath
        (generateCueFileContent (parseTracklist tracklistContent)
          albumTitle audioFilename),
      .ok (), none⟩

/-! ## CLI entry points (argument validation) -/

/-- How a CLI `main` proceeds: print usage and `process.exit(code)`, or
run its pipeline with the given (possibly `undefined`) arguments.  Only a
`run*` outcome performs any file I/O. -/
inductive CliOutcome where
  | usageExit (code : ℕ)
  | runTracklist2Cue (tracklistFile audioFile outputCueFile albumTitle : Option Str)
  | runCue2Mp3 (cueFile outputFolder : Option Str)
  | runTracklist2Mp3 (tracklistFile audioFile albumTitle outputFolder : Option Str)
deriving DecidableEq, Repr

/-- JS falsiness of a possibly-undefined string argument. -/
def jsFalsy : Option Str → Bool
  | none => true
  | some s => s.isEmpty

/-- `main` of the tracklist→CUE entry point (`tracklist2cue.ts`): argv
slots 2–5, usage check `!tracklistFile || !audioFile || !albumTitle`
(the output path is not itself checked). -/
def mainTracklist2Cue (argv : List Str) : CliOutcome :=
  let tracklistFile := argv[2]?
  let audioFile := argv[3]?
  let outputCueFile := argv[4]?
  let albumTitle := argv[5]?
  if jsFalsy tracklistFile || jsFalsy audioFile || jsFalsy albumTitle then
    .usageExit 1
  else
    .runTracklist2Cue tracklistFile audioFile outputCueFile albumTitle

/-- `main` of the CUE→MP3 entry point (`cue2mp3.ts`): argv slots 2–3. -/
def mainCue2Mp3 (argv : List Str) : CliOutcome :=
  let cueFile := argv[2]?
  let outputFolder := argv[3]?
  if jsFalsy cueFile || jsFalsy outputFolder then
    .usageExit 1
  else
    .runCue2Mp3 cueFile outputFolder

/-- `main` of the combined tracklist→MP3 entry point (second entry in
`tracklist2cue.ts`): argv slots 2–5, all four checked. -/
def mainTracklist2Mp3 (argv : List Str) : CliOutcome :=
  let tracklistFile := argv[2]?
  let audioFile := argv[3]?
  let albumTitle := argv[4]?
  let outputFolder := argv[5]?
  if jsFalsy tracklistFile || jsFalsy audioFile || jsFalsy albumTitle ||
      jsFalsy outputFolder then
    .usageExit 1
  else
    .runTracklist2Mp3 tracklistFile audioFile albumTitle outputFolder

/-! ## Lemmas about the JS string layer -/

theorem jsSplitGo_ne_nil (sep : Str) :
    ∀ fuel s acc, jsSplitGo sep fuel s acc ≠ [] := by
  intro fuel
  induction fuel with
  | zero =>
    intro s acc
    cases s <;> simp [jsSplitGo]
  | succ fuel ih =>
    intro s acc
    cases s with
    | nil => simp [jsSplitGo]
    | cons c cs =>
      simp only [jsSplitGo]
      by_cases h : sep.isPrefixOf (c :: cs) = true
      · simp [h]
      · simp only [Bool.not_eq_true] at h
        simp [h, ih]

theorem jsSplit_ne_nil (sep s : Str) (hsep : sep ≠ []) : jsSplit sep s ≠ [] := by
  simp only [jsSplit, if_neg hsep]
  exact jsSplitGo_ne_nil sep s.length s []

theorem jsSplitGo_of_not_infix (sep : Str) :
    ∀ fuel s acc, ¬ sep <:+: s → jsSplitGo sep fuel s acc = [acc.reverse ++ s] := by
  intro fuel
  induction fuel with
  | zero =>
    intro s acc _
    cases s <;> simp [jsSplitGo]
  | succ fuel ih =>
    intro s acc h
    cases s with
    | nil => simp [jsSplitGo]
    | cons c cs =>
      have hpre : sep.isPrefixOf (c :: cs) = false := by
        by_contra hc
        simp only [Bool.not_eq_false, List.isPrefixOf_iff_prefix] at hc
        exact h hc.isInfix
      have htail : ¬ sep <:+: cs := fun hi => h (hi.trans (List.suffix_cons c cs).isInfix)
      simp only [jsSplitGo, hpre, Bool.false_eq_true, if_false, ih cs (c :: acc) htail,
        List.reverse_cons, List.append_assoc, List.cons_append, List.nil_append]

theorem jsSplit_of_not_infix {sep s : Str} (h : ¬ sep <:+: s) : jsSplit sep s = [s] := by
  have hsep : sep ≠ [] := by
    rintro rfl
    exact h List.nil_infix
  simp only [jsSplit, if_neg hsep, jsSplitGo_of_not_infix sep s.length s [] h,
    List.reverse_nil, List.nil_append]

theorem not_infix_single {c : Char} {s : Str} (h : c ∉ s) : ¬ [c] <:+: s :=
  fun hi => h (hi.subset (by simp))

theorem jsSplit_single_of_not_mem {c : Char} {s : Str} (h : c ∉ s) :
    jsSplit [c] s = [s] :=
  jsSplit_of_not_infix (not_infix_single h)

theorem isPrefixOf_single_cons {c x : Char} {xs : Str} :
    [c].isPrefixOf (x :: xs) = (c == x) := by
  simp [List.isPrefixOf]

theorem jsSplitGo_single_fuel {c : Char} :
    ∀ s acc (fuel : ℕ), s.length ≤ fuel →
      jsSplitGo [c] fuel s acc = jsSplitGo [c] s.length s acc := by
  intro s
  induction s with
  | nil =>
    intro acc fuel _
    cases fuel <;> simp [jsSplitGo]
  | cons x xs ih =>
    intro acc fuel hf
    obtain ⟨f, rfl⟩ : ∃ f, fuel = f + 1 := by
      cases fuel with
      | zero => simp at hf
      | succ f => exact ⟨f, rfl⟩
    have hf' : xs.length ≤ f := by simpa using hf
    simp only [jsSplitGo, List.length_cons, isPrefixOf_single_cons,
      List.length_nil, List.drop_succ_cons, List.drop_zero, Nat.zero_add]
    by_cases hc : c = x
    · subst hc
      simp only [beq_self_eq_true, if_true]
      rw [ih [] f hf', ih [] xs.length le_rfl]
    · have : (c == x) = false := beq_false_of_ne hc
      simp only [this, Bool.false_eq_true, if_false]
      rw [ih (x :: acc) f hf', ih (x :: acc) xs.length le_rfl]

theorem jsSplitGo_single_append {c : Char} {b : Str} :
    ∀ a acc (fuel : ℕ), c ∉ a → (a ++ c :: b).length ≤ fuel →
      jsSplitGo [c] fuel (a ++ c :: b) acc =
        (acc.reverse ++ a) :: jsSplit [c] b := by
  intro a
  induction a with
  | nil =>
    intro acc fuel _ hf
    obtain ⟨f, rfl⟩ : ∃ f, fuel = f + 1 := by
      cases fuel with
      | zero => simp at hf
      | succ f => exact ⟨f, rfl⟩
    have hf' : b.length ≤ f := by simpa using hf
    simp only [List.nil_append, jsSplitGo, isPrefixOf_single_cons, beq_self_eq_true,
      if_true, List.length_cons, List.length_nil, List.drop_succ_cons,
      List.drop_zero, Nat.zero_add, List.append_nil]
    rw [jsSplitGo_single_fuel b [] f hf']
    have hne : ([c] : Str) ≠ [] := by simp
    have h2 : jsSplit [c] b = jsSplitGo [c] b.length b [] := by
      simp only [jsSplit]
      exact if_neg hne
    rw [h2]
  | cons x a' ih =>
    intro acc fuel hmem hf
    obtain ⟨f, rfl⟩ : ∃ f, fuel = f + 1 := by
      cases fuel with
      | zero => simp at hf
      | succ f => exact ⟨f, rfl⟩
    have hx : c ≠ x := fun h => hmem (h ▸ List.mem_cons_self x a')
    have hmem' : c ∉ a' := fun h => hmem (List.mem_cons_of_mem x h)
    have hf' : (a' ++ c :: b).length ≤ f := by
      simp only [List.cons_append, List.length_cons] at hf
      omega
    simp only [List.cons_append, jsSplitGo, isPrefixOf_single_cons,
      beq_false_of_ne hx, Bool.false_eq_true, if_false, List.append_eq]
    rw [ih (x :: acc) f hmem' hf']
    simp

theorem jsSplit_single_append {c : Char} {a b : Str} (h : c ∉ a) :
    jsSplit [c] (a ++ c :: b) = a :: jsSplit [c] b := by
  have hne : ([c] : Str) ≠ [] := by simp
  have h1 : jsSplit [c] (a ++ c :: b) =
      jsSplitGo [c] (a ++ c :: b).length (a ++ c :: b) [] := by
    simp only [jsSplit]
    exact if_neg hne
  rw [h1, jsSplitGo_single_append a [] (a ++ c :: b).length h le_rfl]
  simp

theorem takeWhile_append_all {p : Char → Bool} :
    ∀ (a : Str) {b0 : Char} {b : Str}, (∀ x ∈ a, p x = true) → p b0 = false →
      (a ++ b0 :: b).takeWhile p = a := by
  intro a
  induction a with
  | nil =>
    intro b0 b _ hb
    simp [List.takeWhile_cons, hb]
  | cons x a' ih =>
    intro b0 b ha hb
    have hx : p x = true := ha x (List.mem_cons_self x a')
    have ha' : ∀ y ∈ a', p y = true := fun y hy => ha y (List.mem_cons_of_mem x hy)
    simp [List.takeWhile_cons, hx, ih ha' hb]

theorem dropWhile_append_all {p : Char → Bool} :
    ∀ (a : Str) {b0 : Char} {b : Str}, (∀ x ∈ a, p x = true) → p b0 = false →
      (a ++ b0 :: b).dropWhile p = b0 :: b := by
  intro a
  induction a with
  | nil =>
    intro b0 b _ hb
    simp [List.dropWhile_cons, hb]
  | cons x a' ih =>
    intro b0 b ha hb
    have hx : p x = true := ha x (List.mem_cons_self x a')
    have ha' : ∀ y ∈ a', p y = true := fun y hy => ha y (List.mem_cons_of_mem x hy)
    simp [List.dropWhile_cons, hx, ih ha' hb]

theorem trimStartStr_cons_ws {c : Char} (h : jsWsB c = true) (s : Str) :
    trimStartStr (c :: s) = trimStartStr s := by
  simp [trimStartStr, List.dropWhile_cons, h]

theorem trimStartStr_cons_no {c : Char} (h : jsWsB c = false) (s : Str) :
    trimStartStr (c :: s) = c :: s := by
  simp [trimStartStr, List.dropWhile_cons, h]

theorem trimEndStr_append {x y : Str} (hy : trimEndStr y ≠ []) :
    trimEndStr (x ++ y) = x ++ trimEndStr y := by
  have h0 : (y.reverse.dropWhile jsWsB).isEmpty = false := by
    simp only [trimEndStr, ne_eq] at hy
    rcases h : y.reverse.dropWhile jsWsB with _ | ⟨a, as⟩
    · exact absurd (by simp [h]) hy
    · simp
  simp only [trimEndStr, List.reverse_append, List.dropWhile_append, h0,
    Bool.false_eq_true, if_false, List.reverse_append, List.reverse_reverse]

theorem trimEndStr_append_last {a : Str} {c : Char} (hc : jsWsB c = false)
    (ws : Str) (hws : ∀ x ∈ ws, jsWsB x = true) :
    trimEndStr (a ++ c :: ws) = a ++ [c] := by
  simp only [trimEndStr, List.reverse_append, List.reverse_cons]
  rw [List.append_assoc, show ([c] ++ a.reverse : Str) = c :: a.reverse by simp]
  rw [dropWhile_append_all ws.reverse (by intro x hx; exact hws x (by simpa using hx)) hc]
  simp

theorem trimEndStr_ne_nil_of_last {a : Str} {c : Char} (hc : jsWsB c = false)
    (ws : Str) (hws : ∀ x ∈ ws, jsWsB x = true) :
    trimEndStr (a ++ c :: ws) ≠ [] := by
  rw [trimEndStr_append_last hc ws hws]
  simp

/-! ## Lemmas about the decimal printer -/

/-- The numeric value computed by `parseNatQ` on its input. -/
def valNat (s : Str) : ℕ :=
  s.foldl (fun acc c => acc * 10 + (c.toNat - 48)) 0

theorem parseNatQ_eq_valNat {s : Str} (h1 : s ≠ []) (h2 : s.all Char.isDigit = true) :
    parseNatQ s = some (valNat s) := by
  simp only [parseNatQ, valNat, if_pos (And.intro h1 h2)]

theorem digitChar_isDigit (d : ℕ) : (digitChar d).isDigit = true := by
  unfold digitChar
  split <;> decide

theorem digitChar_toNat {d : ℕ} (h : d < 10) : (digitChar d).toNat - 48 = d := by
  interval_cases d <;> decide

theorem natToCharsGo_eq (n : ℕ) :
    ∀ fuel acc, n < fuel → natToCharsGo fuel n acc = natToChars n ++ acc := by
  induction n using Nat.strong_induction_on with
  | _ n ih =>
    intro fuel acc hfuel
    obtain ⟨f, rfl⟩ : ∃ f, fuel = f + 1 := by
      cases fuel with
      | zero => omega
      | succ f => exact ⟨f, rfl⟩
    by_cases h10 : n < 10
    · simp [natToCharsGo, natToChars, h10]
    · have hdiv : n / 10 < n := Nat.div_lt_self (by omega) (by omega)
      simp only [natToCharsGo, h10, if_false, natToChars]
      rw [ih (n / 10) hdiv f (digitChar (n % 10) :: acc) (by omega),
        ih (n / 10) hdiv n (digitChar (n % 10) :: []) (by omega)]
      simp

theorem natToChars_lt {n : ℕ} (h : n < 10) : natToChars n = [digitChar n] := by
  simp [natToChars, natToCharsGo, h]

theorem natToChars_ge {n : ℕ} (h : 10 ≤ n) :
    natToChars n = natToChars (n / 10) ++ [digitChar (n % 10)] := by
  have hdiv : n / 10 < n := Nat.div_lt_self (by omega) (by omega)
  conv_lhs => rw [natToChars, natToCharsGo]
  simp only [Nat.not_lt.mpr h, if_false]
  exact natToCharsGo_eq (n / 10) n (digitChar (n % 10) :: []) hdiv

theorem natToChars_ne_nil (n : ℕ) : natToChars n ≠ [] := by
  by_cases h : n < 10
  · simp [natToChars_lt h]
  · simp [natToChars_ge (by omega : 10 ≤ n)]

theorem natToChars_all_digit (n : ℕ) : (natToChars n).all Char.isDigit = true := by
  induction n using Nat.strong_induction_on with
  | _ n ih =>
    by_cases h : n < 10
    · simp [natToChars_lt h, digitChar_isDigit]
    · have hdiv : n / 10 < n := Nat.div_lt_self (by omega) (by omega)
      simp [natToChars_ge (by omega : 10 ≤ n), ih (n / 10) hdiv, digitChar_isDigit]

theorem valNat_natToChars (n : ℕ) : valNat (natToChars n) = n := by
  induction n using Nat.strong_induction_on with
  | _ n ih =>
    by_cases h : n < 10
    · simp [natToChars_lt h, valNat, digitChar_toNat h]
    · have hdiv : n / 10 < n := Nat.div_lt_self (by omega) (by omega)
      have hmod : n % 10 < 10 := Nat.mod_lt n (by omega)
      rw [natToChars_ge (by omega : 10 ≤ n)]
      simp only [valNat, List.foldl_append] at ih ⊢
      rw [ih (n / 10) hdiv]
      simp only [List.foldl_cons, List.foldl_nil, digitChar_toNat hmod]
      omega

theorem valNat_replicate_zero (k : ℕ) (s : Str) :
    valNat (List.replicate k '0' ++ s) = valNat s := by
  induction k with
  | zero => simp
  | succ k ih =>
    rw [List.replicate_succ, List.cons_append]
    show valNat (List.replicate k '0' ++ s) = valNat s
    exact ih

theorem parseNatQ_pad (n k : ℕ) :
    parseNatQ (List.replicate k '0' ++ natToChars n) = some n := by
  rw [parseNatQ_eq_valNat]
  · rw [valNat_replicate_zero, valNat_natToChars]
  · simp [natToChars_ne_nil n]
  · rw [List.all_append]
    refine Bool.and_eq_true_iff.mpr ⟨?_, natToChars_all_digit n⟩
    simp [List.all_eq_true]

theorem parseNatQ_padStart (n : ℕ) :
    parseNatQ (jsPadStart (natToChars n) 2 '0') = some n :=
  parseNatQ_pad n _

theorem natToChars_no_mem {c : Char} (hc : c.isDigit = false) (n : ℕ) :
    c ∉ natToChars n := by
  intro hmem
  have := natToChars_all_digit n
  rw [List.all_eq_true] at this
  have := this c hmem
  rw [hc] at this
  exact absurd this (by simp)

/-! ## C1: segment planner windows -/

theorem splitSegments_eq_filter (D : ℚ) (tracks : List CueTrack) :
    splitSegments D tracks =
      (specAllWindows tracks D).filter (fun w => decide (w.2.1 < w.2.2)) := by
  induction tracks with
  | nil => simp [splitSegments, specAllWindows]
  | cons t rest ih =>
    cases rest with
    | nil =>
      simp only [splitSegments, specAllWindows, List.map_cons, List.map_nil,
        List.drop_succ_cons, List.drop_nil, List.nil_append, List.zip_cons_cons,
        List.zip_nil_right, List.filter_cons, List.filter_nil]
      by_cases h : t.startTimeSeconds ≥ D
      · rw [if_pos h]
        simp [decide_eq_false (not_lt.mpr h)]
      · rw [if_neg h]
        simp [decide_eq_true (not_le.mp h)]
    | cons t2 rest2 =>
      have hspec : specAllWindows (t :: t2 :: rest2) D =
          (t, t.startTimeSeconds, t2.startTimeSeconds) ::
            specAllWindows (t2 :: rest2) D := by
        simp [specAllWindows]
      rw [hspec]
      show (if t.startTimeSeconds ≥ t2.startTimeSeconds then
          splitSegments D (t2 :: rest2)
        else (t, t.startTimeSeconds, t2.startTimeSeconds) ::
          splitSegments D (t2 :: rest2)) = _
      rw [List.filter_cons]
      by_cases h : t.startTimeSeconds ≥ t2.startTimeSeconds
      · rw [if_pos h]
        simp only [decide_eq_false (not_lt.mpr h), Bool.false_eq_true, if_false]
        exact ih
      · rw [if_neg h]
        simp only [decide_eq_true (not_le.mp h), if_true]
        rw [ih]

theorem specAllWindows_length (tracks : List CueTrack) (D : ℚ) :
    (specAllWindows tracks D).length = tracks.length := by
  simp only [specAllWindows, List.length_map, List.length_zip, List.length_append,
    List.length_drop, List.length_singleton]
  cases tracks <;> simp

/-- C1: for every track list and probed total duration `D`, the planner
derives one window per track — `startSeconds` the track's own start,
`endSeconds` the next track's start, the last track's `endSeconds` equal
to `D` (this is `specAllWindows`) — and it emits extraction requests
exactly for the windows with `startSeconds < endSeconds`, in order;
degenerate windows are skipped, not emitted, and cause no error.  In
particular start seconds `[0, 30, 90]` with total duration `120` yield the
windows `[0,30), [30,90), [90,120)`. -/
theorem claim_C1_segment_planner :
    (∀ (tracks : List CueTrack) (D : ℚ),
        splitSegments D tracks =
          (specAllWindows tracks D).filter (fun w => decide (w.2.1 < w.2.2)) ∧
        (specAllWindows tracks D).length = tracks.length) ∧
      splitSegments 120
          [⟨1, none, none, str "P", 0⟩, ⟨2, none, none, str "P", 30⟩,
            ⟨3, none, none, str "P", 90⟩] =
        [(⟨1, none, none, str "P", 0⟩, 0, 30),
          (⟨2, none, none, str "P", 30⟩, 30, 90),
          (⟨3, none, none, str "P", 90⟩, 90, 120)] := by
  refine ⟨fun tracks D => ⟨splitSegments_eq_filter D tracks,
    specAllWindows_length tracks D⟩, ?_⟩
  with_unfolding_all decide

/-! ## C3: the first entry's timestamp is forced to "00:00" -/

/-- C3: for every non-empty tracklist input, the first entry returned by
`parseTracklist` has timestamp exactly `"00:00"`, whatever the first
line's own timestamp text was. -/
theorem claim_C3_first_timestamp (s : Str) (_h : s ≠ []) :
    (parseTracklist s).head?.map Track.timestamp = some (str "00:00") := by
  have hne : jsSplit (str "\n") (trimStr s) ≠ [] :=
    jsSplit_ne_nil _ _ (by decide)
  obtain ⟨l, rest, hsplit⟩ := List.exists_cons_of_ne_nil hne
  unfold parseTracklist
  rw [hsplit, List.mapIdx_cons]
  simp [parseLine]

theorem claim_C3_witness :
    (str "7:07 Artist - Title") ≠ ([] : Str) ∧
      (parseTracklist (str "7:07 Artist - Title")).head?.map Track.timestamp =
        some (str "00:00") :=
  ⟨by decide, claim_C3_first_timestamp _ (by decide)⟩

/-! ## C8: CLI usage checks -/

/-- C8: in each of the three entry points, a missing required positional
argument (arguments are positional, so some required argument is missing
exactly when `argv` is shorter than the full form: 6 entries for the two
four-argument entry points, 4 for `cue2mp3`) makes `main` print usage and
exit with status 1; no pipeline (and hence no file I/O) is reached, since
only a `run*` outcome carries one. -/
theorem claim_C8_cli_usage (argv : List Str) :
    (argv.length ≤ 5 → mainTracklist2Cue argv = .usageExit 1) ∧
    (argv.length ≤ 3 → mainCue2Mp3 argv = .usageExit 1) ∧
    (argv.length ≤ 5 → mainTracklist2Mp3 argv = .usageExit 1) := by
  refine ⟨fun h => ?_, fun h => ?_, fun h => ?_⟩
  · have h5 : argv[5]? = none := List.getElem?_eq_none (by omega)
    simp [mainTracklist2Cue, h5, jsFalsy]
  · have h3 : argv[3]? = none := List.getElem?_eq_none (by omega)
    simp [mainCue2Mp3, h3, jsFalsy]
  · have h5 : argv[5]? = none := List.getElem?_eq_none (by omega)
    simp [mainTracklist2Mp3, h5, jsFalsy]

theorem claim_C8_witness :
    mainTracklist2Cue [str "node", str "script.js"] = .usageExit 1 ∧
    mainCue2Mp3 [str "node", str "script.js"] = .usageExit 1 ∧
    mainTracklist2Mp3 [str "node", str "script.js"] = .usageExit 1 :=
  ⟨(claim_C8_cli_usage _).1 (by decide), (claim_C8_cli_usage _).2.1 (by decide),
    (claim_C8_cli_usage _).2.2 (by decide)⟩

/-! ## C9: filename sanitization -/

theorem mem_collapseWs : ∀ (s : Str) (c : Char), c ∈ collapseWs s → c = ' ' ∨ c ∈ s := by
  intro s
  induction s with
  | nil => simp [collapseWs]
  | cons c1 rest ih =>
    cases rest with
    | nil =>
      intro c hc
      by_cases h : jsWsB c1 = true
      · simp [collapseWs, h] at hc
        exact Or.inl hc
      · simp only [Bool.not_eq_true] at h
        simp [collapseWs, h] at hc
        simp [hc]
    | cons c2 cs =>
      intro c hc
      by_cases h : (jsWsB c1 && jsWsB c2) = true
      · rw [show collapseWs (c1 :: c2 :: cs) = collapseWs (c2 :: cs) by
          simp [collapseWs, h]] at hc
        rcases ih c hc with h1 | h1
        · exact Or.inl h1
        · exact Or.inr (List.mem_cons_of_mem c1 h1)
      · rw [show collapseWs (c1 :: c2 :: cs) =
            (if jsWsB c1 then ' ' else c1) :: collapseWs (c2 :: cs) by
          simp only [collapseWs, h, Bool.false_eq_true, if_false]] at hc
        rcases List.mem_cons.mp hc with h1 | h1
        · by_cases hws : jsWsB c1 = true
          · rw [if_pos hws] at h1
            exact Or.inl h1
          · simp only [Bool.not_eq_true] at hws
            rw [if_neg (by simp [hws])] at h1
            exact Or.inr (by simp [h1])
        · rcases ih c h1 with h2 | h2
          · exact Or.inl h2
          · exact Or.inr (List.mem_cons_of_mem c1 h2)

theorem mem_trimStr {c : Char} {s : Str} (h : c ∈ trimStr s) : c ∈ s := by
  simp only [trimStr, trimEndStr, trimStartStr] at h
  rw [List.mem_reverse] at h
  have h1 := (List.dropWhile_sublist (l := (List.dropWhile jsWsB s).reverse)
    (p := jsWsB)).mem h
  rw [List.mem_reverse] at h1
  exact (List.dropWhile_sublist (l := s) (p := jsWsB)).mem h1

theorem sanitize_all_kept (s : Str) : (sanitize s).all sanitizeKeep = true := by
  rw [List.all_eq_true]
  intro c hc
  have h1 : c ∈ collapseWs (s.filter sanitizeKeep) := mem_trimStr hc
  rcases mem_collapseWs _ c h1 with h2 | h2
  · subst h2
    decide
  · exact (List.mem_filter.mp h2).2

/-- C9: the output-filename sanitization strips every character that is
not alphanumeric, whitespace, hyphen, underscore, or period
(`sanitizeKeep`), then collapses whitespace runs to single spaces, then
trims; every surviving character is from the allowed class, and in
particular `"DJ X & Y"` sanitizes to `"DJ X Y"` and
`"Intro/Outro (Live)!"` to `"IntroOutro Live"`. -/
theorem claim_C9_sanitization :
    sanitize (str "DJ X & Y") = str "DJ X Y" ∧
    sanitize (str "Intro/Outro (Live)!") = str "IntroOutro Live" ∧
    (∀ s : Str, sanitize s = trimStr (collapseWs (s.filter sanitizeKeep))) ∧
    (∀ s : Str, (sanitize s).all sanitizeKeep = true) :=
  ⟨by decide, by decide, fun _ => rfl, sanitize_all_kept⟩

/-! ## C7: a missing tracklist input is caught, not propagated -/

/-- C7 counterexample: with an empty filesystem, the tracklist input does
not exist, yet `convertTracklistToCue`'s promise resolves successfully
(`.ok ()`) — the `InputNotFound` error does NOT propagate to the caller;
it is only logged by the `catch` block (with the offending path), and no
output file is written. -/
theorem claim_C7_counterexample :
    (convertTracklistToCue ⟨[]⟩ (str "tracklist.txt") (str "out.cue")
        (str "Album") (str "audio.mp3")).outcome = .ok () ∧
    (convertTracklistToCue ⟨[]⟩ (str "tracklist.txt") (str "out.cue")
        (str "Album") (str "audio.mp3")).fs = ⟨[]⟩ ∧
    (convertTracklistToCue ⟨[]⟩ (str "tracklist.txt") (str "out.cue")
        (str "Album") (str "audio.mp3")).logged =
      some (.enoent (str "tracklist.txt")) :=
  ⟨rfl, rfl, rfl⟩

/-- C7 (amended): when the input tracklist file does not exist, the read
error (carrying the offending path) is caught inside
`convertTracklistToCue` and only logged; the returned promise resolves
successfully, the filesystem is unchanged (in particular no output CUE
file is written), and the caller is NOT aborted by a propagated error. -/
theorem claim_C7_error_swallowed (fs : FS)
    (inputFilePath outputFilePath albumTitle audioFilename : Str) (e : FsError)
    (h : fs.read inputFilePath = .error e) :
    convertTracklistToCue fs inputFilePath outputFilePath albumTitle
        audioFilename = ⟨fs, .ok (), some e⟩ := by
  simp [convertTracklistToCue, h]

theorem claim_C7_witness :
    convertTracklistToCue ⟨[]⟩ (str "missing.txt") (str "o.cue") (str "A")
        (str "a.mp3") = ⟨⟨[]⟩, .ok (), some (.enoent (str "missing.txt"))⟩ :=
  claim_C7_error_swallowed ⟨[]⟩ _ _ _ _ _ rfl

/-! ## C2: lines without the " - " delimiter -/

theorem after_of_not_infix {w sep : Str} (h : ¬ sep <:+: w) : after w sep = w := by
  by_cases hw : w = []
  · simp [after, hw]
  · simp [after, if_neg hw, jsSplit_of_not_infix h]

theorem jsReplaceFirst_of_not_infix {s pat r : Str} (h : ¬ pat <:+: s) :
    jsReplaceFirst s pat r = s := by
  simp [jsReplaceFirst, jsSplit_of_not_infix h]

theorem not_infix_of_longer {pat s : Str} (h : s.length < pat.length) :
    ¬ pat <:+: s :=
  fun hi => absurd hi.length_le (by omega)

/-- C2 counterexample: the line `"00:00 Hello"` has no `" - "` delimiter
after its timestamp, yet `parseTracklist` returns artist `"Hello"` (the
whole remainder), not the empty string: `after` returns its whole input
when the delimiter is absent, so `title = remainder`, and the subsequent
`replace(" - " + title, '')` finds no occurrence and leaves the remainder
as `artist`. -/
theorem claim_C2_counterexample :
    ¬ (str " - ") <:+: withoutTimestampOf (str "00:00 Hello") ∧
    (parseTracklist (str "00:00 Hello")).map Track.artist = [str "Hello"] ∧
    str "Hello" ≠ ([] : Str) :=
  ⟨by decide, by decide, by decide⟩

/-- C2 (amended): for every tracklist line whose remainder after the
timestamp token does not contain the `" - "` delimiter, the title is the
entire remainder as claimed, but the artist is NOT empty — it also equals
the entire remainder (artist is empty only when the remainder itself is
empty). -/
theorem claim_C2_no_delimiter (index : ℕ) (line : Str)
    (h : ¬ (str " - ") <:+: withoutTimestampOf line) :
    (parseLine index line).title = withoutTimestampOf line ∧
    (parseLine index line).artist = withoutTimestampOf line := by
  constructor
  · simp only [parseLine]
    exact after_of_not_infix h
  · simp only [parseLine, after_of_not_infix h]
    refine jsReplaceFirst_of_not_infix (not_infix_of_longer ?_)
    have : (str " - " ++ withoutTimestampOf line).length =
        (withoutTimestampOf line).length + 3 := by
      simp [str]
    omega

theorem claim_C2_witness :
    ¬ (str " - ") <:+: withoutTimestampOf (str "00:00 JustTitle") ∧
    ((parseLine 0 (str "00:00 JustTitle")).title =
        withoutTimestampOf (str "00:00 JustTitle") ∧
      (parseLine 0 (str "00:00 JustTitle")).artist =
        withoutTimestampOf (str "00:00 JustTitle")) :=
  ⟨by decide, claim_C2_no_delimiter 0 _ (by decide)⟩

/-! ## C5: parseCueFile output is sorted by start time -/

/-- C5: every `ParsedCueFile` accepted (returned as `.ok`) by the CUE
parsing adapter has its tracks sorted ascending by `startTimeSeconds`,
regardless of the order the tracks appear in the sheet. -/
theorem claim_C5_tracks_sorted (sheet : CueSheet) (r : ParsedCueFile)
    (h : parseCueSheet sheet = .ok r) :
    List.Sorted trackLE r.tracks := by
  obtain ⟨st, sp, files⟩ := sheet
  cases files with
  | nil =>
    simp only [parseCueSheet] at h
    exact absurd h (by simp)
  | cons f rest =>
    by_cases ht : f.tracks = []
    · simp only [parseCueSheet, if_pos ht] at h
      exact absurd h (by simp)
    · simp only [parseCueSheet, if_neg ht, Except.ok.injEq] at h
      rw [← h]
      exact List.sorted_insertionSort trackLE _

theorem claim_C5_witness :
    List.Sorted trackLE
      [⟨1, none, none, str "Unknown Artist", cueTimeToSeconds ⟨0, 10, 0⟩⟩,
        ⟨2, none, none, str "Unknown Artist", cueTimeToSeconds ⟨0, 30, 0⟩⟩] :=
  claim_C5_tracks_sorted
    ⟨none, none, [⟨str "a.mp3",
      [⟨2, none, none, [⟨1, ⟨0, 30, 0⟩⟩]⟩,
        ⟨1, none, none, [⟨1, ⟨0, 10, 0⟩⟩]⟩]⟩]⟩
    ⟨none, none, str "a.mp3",
      [⟨1, none, none, str "Unknown Artist", cueTimeToSeconds ⟨0, 10, 0⟩⟩,
        ⟨2, none, none, str "Unknown Artist", cueTimeToSeconds ⟨0, 30, 0⟩⟩]⟩
    (by with_unfolding_all rfl)

/-! ## C10: only the first FILE entry is used -/

/-- C10: `parseCueFile` reads only the first `FILE` entry of the sheet —
the result is identical whatever further `FILE` entries (and their
tracks) are present, the reported audio file name is the first entry's
name, and every returned track stems from a track of the first entry;
tracks of later entries are silently ignored (hence never produce
extraction windows). -/
theorem parseCueSheet_tracks_from_first (t p : Option Str) (f0 : CueFileEntry)
    (rest : List CueFileEntry) (r : ParsedCueFile)
    (h : parseCueSheet ⟨t, p, f0 :: rest⟩ = .ok r) :
    ∀ tr ∈ r.tracks, ∃ src ∈ f0.tracks,
      tr.trackNumber = src.number ∧ tr.title = src.title := by
  by_cases ht : f0.tracks = []
  · simp only [parseCueSheet, if_pos ht] at h
    exact absurd h (by simp)
  · simp only [parseCueSheet, if_neg ht, Except.ok.injEq] at h
    rw [← h]
    intro tr htr
    have h1 := (List.perm_insertionSort trackLE _).subset htr
    rw [List.mem_filterMap] at h1
    obtain ⟨src, hsrc, heq⟩ := h1
    refine ⟨src, hsrc, ?_⟩
    cases hfind : src.indexes.find? (fun idx => idx.number == 1) with
    | none =>
      rw [hfind] at heq
      exact absurd heq (by simp)
    | some i =>
      rw [hfind] at heq
      have := Option.some.inj heq
      rw [← this]
      exact ⟨rfl, rfl⟩

theorem claim_C10_first_file_only (t p : Option Str) (f0 : CueFileEntry)
    (rest : List CueFileEntry) :
    parseCueSheet ⟨t, p, f0 :: rest⟩ = parseCueSheet ⟨t, p, [f0]⟩ ∧
    (f0.tracks ≠ [] → ∃ r, parseCueSheet ⟨t, p, f0 :: rest⟩ = .ok r ∧
      r.audioFileName = f0.name ∧
      ∀ tr ∈ r.tracks, ∃ src ∈ f0.tracks,
        tr.trackNumber = src.number ∧ tr.title = src.title) := by
  constructor
  · rfl
  · intro h
    have hok : ∃ r, parseCueSheet ⟨t, p, f0 :: rest⟩ = .ok r ∧
        r.audioFileName = f0.name := by
      simp only [parseCueSheet, if_neg h]
      exact ⟨_, rfl, rfl⟩
    obtain ⟨r, hok, hname⟩ := hok
    exact ⟨r, hok, hname, parseCueSheet_tracks_from_first t p f0 rest r hok⟩

theorem claim_C10_witness :
    ∃ r, parseCueSheet
        ⟨none, none,
          [⟨str "a.mp3", [⟨7, some (str "T"), none, [⟨1, ⟨0, 0, 0⟩⟩]⟩]⟩,
            ⟨str "b.mp3", [⟨9, some (str "U"), none, [⟨1, ⟨0, 5, 0⟩⟩]⟩]⟩]⟩ =
        .ok r ∧
      r.audioFileName = str "a.mp3" ∧
      ∀ tr ∈ r.tracks,
        ∃ src ∈ [(⟨7, some (str "T"), none, [⟨1, ⟨0, 0, 0⟩⟩]⟩ : CueParsedTrack)],
          tr.trackNumber = src.number ∧ tr.title = src.title :=
  (claim_C10_first_file_only none none
    ⟨str "a.mp3", [⟨7, some (str "T"), none, [⟨1, ⟨0, 0, 0⟩⟩]⟩]⟩
    [⟨str "b.mp3", [⟨9, some (str "U"), none, [⟨1, ⟨0, 5, 0⟩⟩]⟩]⟩]).2
    (by decide)

/-! ## C6: formatTime -/

theorem ratTrunc_of_nonneg {q : ℚ} (h : 0 ≤ q) : ratTrunc q = ⌊q⌋ := by
  simp [ratTrunc, not_lt.mpr h]

theorem floor_div_int (a : ℚ) (n : ℤ) (hn : 0 < n) :
    ⌊a / (n : ℚ)⌋ = ⌊a⌋ / n := by
  have hnq : (0 : ℚ) < (n : ℚ) := by exact_mod_cast hn
  have h1 : ⌊a⌋ / n * n ≤ ⌊a⌋ := Int.ediv_mul_le ⌊a⌋ (by omega)
  have h2 : ⌊a⌋ < (⌊a⌋ / n + 1) * n := Int.lt_ediv_add_one_mul_self ⌊a⌋ hn
  rw [Int.floor_eq_iff]
  constructor
  · rw [le_div_iff₀ hnq]
    calc ((⌊a⌋ / n : ℤ) : ℚ) * (n : ℚ) = ((⌊a⌋ / n * n : ℤ) : ℚ) := by push_cast; ring
    _ ≤ ((⌊a⌋ : ℤ) : ℚ) := by exact_mod_cast h1
    _ ≤ a := Int.floor_le a
  · rw [div_lt_iff₀ hnq]
    refine lt_of_lt_of_le (Int.lt_floor_add_one a) ?_
    have h3 : ⌊a⌋ + 1 ≤ (⌊a⌋ / n + 1) * n := Int.lt_iff_add_one_le.mp h2
    exact_mod_cast h3

/-- C6: for every non-negative seconds value, `formatTime` produces
`HH:MM:SS.mmm` where the hours are `⌊q/3600⌋`, the remaining minutes
`⌊q/60⌋ % 60`, the remaining whole seconds `⌊q⌋ % 60` (all floored), the
milliseconds `Math.round` (half-up, not floor) of the fractional
remainder times 1000, and each field is zero-padded with `padStart`
(HH, MM, SS to 2 digits, mmm to 3); in particular
`formatTime (6787/75) = "00:01:30.493"` (90.4933... seconds). -/
theorem claim_C6_formatTime :
    (∀ q : ℚ, 0 ≤ q →
      formatTime q =
        jsPadStart (intToChars ⌊q / 3600⌋) 2 '0' ++ str ":" ++
        jsPadStart (intToChars (⌊q / 60⌋ % 60)) 2 '0' ++ str ":" ++
        jsPadStart (intToChars (⌊q⌋ % 60)) 2 '0' ++ str "." ++
        jsPadStart (intToChars (jsRound (Int.fract q * 1000))) 3 '0') ∧
    formatTime (6787 / 75) = str "00:01:30.493" := by
  have main : ∀ q : ℚ, 0 ≤ q →
      formatTime q =
        jsPadStart (intToChars ⌊q / 3600⌋) 2 '0' ++ str ":" ++
        jsPadStart (intToChars (⌊q / 60⌋ % 60)) 2 '0' ++ str ":" ++
        jsPadStart (intToChars (⌊q⌋ % 60)) 2 '0' ++ str "." ++
        jsPadStart (intToChars (jsRound (Int.fract q * 1000))) 3 '0' := by
    intro q hq
    have h3600 : (0 : ℚ) < 3600 := by norm_num
    have h60 : (0 : ℚ) < 60 := by norm_num
    have hk : ratTrunc (q / 3600) = ⌊q / 3600⌋ :=
      ratTrunc_of_nonneg (div_nonneg hq (le_of_lt h3600))
    have hs1 : jsMod q 3600 = q - 3600 * (⌊q / 3600⌋ : ℚ) := by
      rw [jsMod, hk]
    have hfloor_le : (⌊q / 3600⌋ : ℚ) * 3600 ≤ q := by
      have h := Int.floor_le (q / 3600)
      rw [le_div_iff₀ h3600] at h
      exact h
    have hs1_nonneg : 0 ≤ q - 3600 * (⌊q / 3600⌋ : ℚ) := by linarith
    have hkdiv : ⌊q / 3600⌋ = ⌊q / 60⌋ / 60 := by
      have hsplit : q / 3600 = q / 60 / ((60 : ℤ) : ℚ) := by
        rw [div_div]
        norm_num
      rw [hsplit, floor_div_int (q / 60) 60 (by norm_num)]
    have hqdiv : ⌊q / 60⌋ = ⌊q⌋ / 60 := by
      have hsplit : q / 60 = q / ((60 : ℤ) : ℚ) := by norm_num
      rw [hsplit, floor_div_int q 60 (by norm_num)]
    have hmin_floor : ⌊(q - 3600 * (⌊q / 3600⌋ : ℚ)) / 60⌋ =
        ⌊q / 60⌋ - 60 * ⌊q / 3600⌋ := by
      have hsplit : (q - 3600 * (⌊q / 3600⌋ : ℚ)) / 60 =
          q / 60 - ((60 * ⌊q / 3600⌋ : ℤ) : ℚ) := by
        push_cast
        ring
      rw [hsplit, Int.floor_sub_int]
    have hmin : ⌊(q - 3600 * (⌊q / 3600⌋ : ℚ)) / 60⌋ = ⌊q / 60⌋ % 60 := by
      rw [hmin_floor, hkdiv]
      omega
    have hrem : jsMod (jsMod q 3600) 60 = q - 60 * (⌊q / 60⌋ : ℚ) := by
      rw [hs1, jsMod,
        ratTrunc_of_nonneg (div_nonneg hs1_nonneg (le_of_lt h60)), hmin_floor]
      push_cast
      ring
    have hrem_int : jsMod (jsMod q 3600) 60 = q - ((60 * ⌊q / 60⌋ : ℤ) : ℚ) := by
      rw [hrem]
      push_cast
      ring
    have hsec : ⌊jsMod (jsMod q 3600) 60⌋ = ⌊q⌋ % 60 := by
      rw [hrem_int, Int.floor_sub_int, hqdiv]
      omega
    have hfract : jsMod (jsMod q 3600) 60 -
        ((⌊jsMod (jsMod q 3600) 60⌋ : ℤ) : ℚ) = Int.fract q := by
      rw [Int.self_sub_floor, hrem_int, Int.fract_sub_int]
    simp only [formatTime]
    rw [hfract, hsec]
    have hmin' : ⌊jsMod q 3600 / 60⌋ = ⌊q / 60⌋ % 60 := by
      rw [hs1]
      exact hmin
    rw [hmin']
  refine ⟨main, ?_⟩
  rw [main (6787 / 75) (by positivity)]
  with_unfolding_all decide

theorem claim_C6_witness :
    (0 : ℚ) ≤ 6787 / 75 ∧
      formatTime (6787 / 75) =
        jsPadStart (intToChars ⌊(6787 / 75 : ℚ) / 3600⌋) 2 '0' ++ str ":" ++
        jsPadStart (intToChars (⌊(6787 / 75 : ℚ) / 60⌋ % 60)) 2 '0' ++ str ":" ++
        jsPadStart (intToChars (⌊(6787 / 75 : ℚ)⌋ % 60)) 2 '0' ++ str "." ++
        jsPadStart (intToChars (jsRound (Int.fract (6787 / 75 : ℚ) * 1000))) 3 '0' :=
  ⟨by positivity, claim_C6_formatTime.1 (6787 / 75) (by positivity)⟩

/-! ## C4: round trip through the CUE serializer and parser -/

/-- The minutes field read back from an `MM:SS` timestamp (0 when the
timestamp is not of that shape). -/
def tsMin (ts : Str) : ℕ :=
  match jsSplit (str ":") ts with
  | [mS, _] => valNat mS
  | _ => 0

/-- The seconds field read back from an `MM:SS` timestamp. -/
def tsSecF (ts : Str) : ℕ :=
  match jsSplit (str ":") ts with
  | [_, sS] => valNat sS
  | _ => 0

/-- The time denoted by an `MM:SS` timestamp, in seconds. -/
def tsSeconds (ts : Str) : ℚ := (tsMin ts : ℚ) * 60 + (tsSecF ts : ℚ)

/-- A tracklist timestamp that round-trips: `MM:SS` with non-empty
all-digit fields. -/
def GoodTS (ts : Str) : Prop :=
  ∃ mS sS, ts = mS ++ ':' :: sS ∧
    mS ≠ [] ∧ mS.all Char.isDigit = true ∧
    sS ≠ [] ∧ sS.all Char.isDigit = true

/-- Text that does not break the CUE line structure: no quote (the
serializer performs no escaping) and no newline. -/
def GoodText (s : Str) : Prop := '"' ∉ s ∧ '\n' ∉ s

/-- The two header lines the serializer emits. -/
def headerLines (albumTitle filename : Str) : List Str :=
  [str "TITLE \"" ++ albumTitle ++ str "\"",
   str "FILE \"" ++ filename ++ str "\" MP3"]

/-- The four lines of one serialized track block. -/
def trackLines (i : ℕ) (t : Track) : List Str :=
  [str "\tTRACK " ++ jsPadStart (natToChars (i + 1)) 2 '0' ++ str " AUDIO",
   str "\t\tTITLE \"" ++ t.title ++ str "\"",
   str "\t\tPERFORMER \"" ++ t.artist ++ str "\"",
   str "\t\tINDEX 01 " ++ timeToFrames t.timestamp]

/-- All block lines from loop index `i` on. -/
def blockLinesList : ℕ → List Track → List Str
  | _, [] => []
  | i, t :: ts => trackLines i t ++ blockLinesList (i + 1) ts

/-- Join lines with a trailing newline after each. -/
def joinNl : List Str → Str
  | [] => []
  | l :: ls => l ++ '\n' :: joinNl ls

/-- The `CueParsedTrack`s the modelled grammar parser recovers from the
serialized blocks, starting at loop index `i`. -/
def parsedFrom : ℕ → List Track → List CueParsedTrack
  | _, [] => []
  | i, t :: ts =>
    ⟨i + 1, some t.title, some t.artist,
      [⟨1, ⟨tsMin t.timestamp, tsSecF t.timestamp, 0⟩⟩]⟩ :: parsedFrom (i + 1) ts

/-- The `CueTrack`s the adapter builds from those parsed tracks. -/
def cueTracksFrom : ℕ → List Track → List CueTrack
  | _, [] => []
  | i, t :: ts =>
    ⟨i + 1, some t.title, some t.title,
      jsOrStr (some t.artist) (str "Unknown Artist"),
      cueTimeToSeconds ⟨tsMin t.timestamp, tsSecF t.timestamp, 0⟩⟩ ::
      cueTracksFrom (i + 1) ts

theorem trackBlock_eq_joinNl (i : ℕ) (t : Track) :
    trackBlock i t = joinNl (trackLines i t) := by
  simp only [trackBlock, trackLines, joinNl, timeToFrames, List.append_assoc,
    List.cons_append, List.nil_append]
  rfl

theorem joinNl_append (xs ys : List Str) :
    joinNl (xs ++ ys) = joinNl xs ++ joinNl ys := by
  induction xs with
  | nil => simp [joinNl]
  | cons l ls ih => simp [joinNl, ih]

theorem tracksBlocks_eq_joinNl : ∀ (i : ℕ) (tracks : List Track),
    tracksBlocks i tracks = joinNl (blockLinesList i tracks) := by
  intro i tracks
  induction tracks generalizing i with
  | nil => rfl
  | cons t ts ih =>
    simp only [tracksBlocks, blockLinesList, joinNl_append,
      trackBlock_eq_joinNl, ih]

theorem gen_body_eq_joinNl (tracks : List Track) (albumTitle filename : Str) :
    str "TITLE \"" ++ albumTitle ++ str "\"\n" ++
      str "FILE \"" ++ filename ++ str "\" MP3\n" ++ tracksBlocks 0 tracks =
    joinNl (headerLines albumTitle filename ++ blockLinesList 0 tracks) := by
  rw [joinNl_append, tracksBlocks_eq_joinNl]
  simp only [headerLines, joinNl, List.append_assoc, List.cons_append,
    List.nil_append]
  rfl

/-- A line that ends with a non-whitespace character. -/
def EndsNonWs (l : Str) : Prop :=
  ∃ a c, l = a ++ [c] ∧ jsWsB c = false

theorem trimEnd_joinNl : ∀ ls : List Str, ls ≠ [] →
    (∀ l ∈ ls, EndsNonWs l) →
    trimEndStr (joinNl ls) ++ ['\n'] = joinNl ls := by
  intro ls
  induction ls with
  | nil => intro h; exact absurd rfl h
  | cons l tail ih =>
    intro _ hends
    obtain ⟨a, c, hl, hc⟩ := hends l (List.mem_cons_self l tail)
    cases tail with
    | nil =>
      show trimEndStr (l ++ '\n' :: joinNl []) ++ ['\n'] = l ++ '\n' :: joinNl []
      rw [hl]
      show trimEndStr ((a ++ [c]) ++ '\n' :: ([] : Str)) ++ ['\n'] = _
      rw [List.append_assoc, List.singleton_append,
        trimEndStr_append_last hc ['\n'] (by intro x hx; simp at hx; subst hx; rfl)]
      simp [joinNl]
    | cons l2 tail2 =>
      have hne2 : trimEndStr (joinNl (l2 :: tail2)) ≠ [] := by
        intro h0
        have hIH := ih (by simp) (fun x hx => hends x (List.mem_cons_of_mem l hx))
        rw [h0, List.nil_append] at hIH
        obtain ⟨a2, c2, hl2, _⟩ :=
          hends l2 (List.mem_cons_of_mem l (List.mem_cons_self l2 tail2))
        have hlen := congrArg List.length hIH
        simp only [joinNl, List.length_append, List.length_cons,
          List.length_singleton, hl2] at hlen
        simp at hlen
        omega
      have hsplit : joinNl (l :: l2 :: tail2) =
          (l ++ ['\n']) ++ joinNl (l2 :: tail2) := by
        show l ++ '\n' :: joinNl (l2 :: tail2) = _
        rw [List.append_assoc, List.singleton_append]
      rw [hsplit, trimEndStr_append hne2, List.append_assoc,
        ih (by simp) (fun x hx => hends x (List.mem_cons_of_mem l hx))]

theorem jsSplit_nl_joinNl : ∀ ls : List Str, (∀ l ∈ ls, '\n' ∉ l) →
    jsSplit ['\n'] (joinNl ls) = ls ++ [[]] := by
  intro ls
  induction ls with
  | nil => intro _; rfl
  | cons l tail ih =>
    intro h
    show jsSplit ['\n'] (l ++ '\n' :: joinNl tail) = _
    rw [jsSplit_single_append (h l (List.mem_cons_self l tail)),
      ih (fun x hx => h x (List.mem_cons_of_mem l hx))]
    rfl

theorem filter_nonempty_lines (ls : List Str) (h : ∀ l ∈ ls, l ≠ []) :
    (ls ++ [[]]).filter (fun l => !l.isEmpty) = ls := by
  rw [List.filter_append]
  have h1 : List.filter (fun l => !l.isEmpty) [([] : Str)] = [] := rfl
  rw [h1, List.append_nil]
  rw [List.filter_eq_self]
  intro a ha
  simp [List.isEmpty_iff, h a ha]

theorem headerLines_ends (album fn : Str) :
    ∀ l ∈ headerLines album fn, EndsNonWs l := by
  intro l hl
  simp only [headerLines, List.mem_cons, List.not_mem_nil, or_false] at hl
  rcases hl with rfl | rfl
  · exact ⟨str "TITLE \"" ++ album, '"', by rfl, by decide⟩
  · exact ⟨str "FILE \"" ++ (fn ++ str "\" MP"), '3',
      by simp only [List.append_assoc]; rfl, by decide⟩

theorem blockLines_ends : ∀ (i : ℕ) (ts : List Track),
    ∀ l ∈ blockLinesList i ts, EndsNonWs l := by
  intro i ts
  induction ts generalizing i with
  | nil => simp [blockLinesList]
  | cons t ts ih =>
    intro l hl
    simp only [blockLinesList] at hl
    rcases List.mem_append.mp hl with h1 | h1
    · simp only [trackLines, List.mem_cons, List.not_mem_nil, or_false] at h1
      rcases h1 with rfl | rfl | rfl | rfl
      · exact ⟨str "\tTRACK " ++ (jsPadStart (natToChars (i + 1)) 2 '0' ++ str " AUDI"),
          'O', by simp only [List.append_assoc]; rfl, by decide⟩
      · exact ⟨str "\t\tTITLE \"" ++ t.title, '"', by rfl, by decide⟩
      · exact ⟨str "\t\tPERFORMER \"" ++ t.artist, '"', by rfl, by decide⟩
      · exact ⟨str "\t\tINDEX 01 " ++ (t.timestamp ++ str ":0"), '0',
          by simp only [timeToFrames, List.append_assoc]; rfl, by decide⟩
    · exact ih (i + 1) l h1

/-- `generateCueFileContent` produces exactly the header lines plus the
per-track blocks, each newline-terminated (the final `trimEnd() + '\n'`
only removes and restores the last newline, since every emitted line ends
with a non-whitespace character). -/
theorem gen_eq_lines (tracks : List Track) (album fn : Str) :
    generateCueFileContent tracks album fn =
      joinNl (headerLines album fn ++ blockLinesList 0 tracks) := by
  unfold generateCueFileContent
  rw [gen_body_eq_joinNl]
  have hne : headerLines album fn ++ blockLinesList 0 tracks ≠ [] := by
    exact List.append_ne_nil_of_left_ne_nil (by simp [headerLines]) _
  have hends : ∀ l ∈ headerLines album fn ++ blockLinesList 0 tracks, EndsNonWs l := by
    intro l hl
    rcases List.mem_append.mp hl with h1 | h1
    · exact headerLines_ends album fn l h1
    · exact blockLines_ends 0 tracks l h1
  have := trimEnd_joinNl _ hne hends
  rw [show str "\n" = ['\n'] from rfl]
  exact this

theorem ne_of_isDigit {c : Char} (hc : c.isDigit = true) {x : Char}
    (hx : x.isDigit = false) : c ≠ x := by
  intro h
  subst h
  rw [hc] at hx
  cases hx

theorem mem_padded_digits {c : Char} {n k : ℕ}
    (h : c ∈ List.replicate k '0' ++ natToChars n) : c.isDigit = true := by
  rcases List.mem_append.mp h with h1 | h1
  · rw [List.eq_of_mem_replicate h1]
    decide
  · have := natToChars_all_digit n
    rw [List.all_eq_true] at this
    exact this c h1

theorem GoodTS_not_mem {ts : Str} (h : GoodTS ts) {x : Char}
    (hx : x.isDigit = false) (hxc : x ≠ ':') : x ∉ ts := by
  obtain ⟨mS, sS, rfl, _, hmd, _, hsd⟩ := h
  intro hmem
  rw [List.all_eq_true] at hmd hsd
  rcases List.mem_append.mp hmem with h1 | h1
  · exact absurd (hmd x h1) (by simp [hx])
  · rcases List.mem_cons.mp h1 with rfl | h2
    · exact hxc rfl
    · exact absurd (hsd x h2) (by simp [hx])

theorem blockLines_no_nl : ∀ (ts : List Track) (i : ℕ),
    (∀ t ∈ ts, '\n' ∉ t.title ∧ '\n' ∉ t.artist ∧ GoodTS t.timestamp) →
    ∀ l ∈ blockLinesList i ts, '\n' ∉ l := by
  intro ts
  induction ts with
  | nil =>
    intro i _ l hl
    simp [blockLinesList] at hl
  | cons t ts ih =>
    intro i h l hl
    obtain ⟨ht1, ht2, ht3⟩ := h t (List.mem_cons_self t ts)
    simp only [blockLinesList] at hl
    rcases List.mem_append.mp hl with h1 | h1
    · simp only [trackLines, List.mem_cons, List.not_mem_nil, or_false] at h1
      rcases h1 with rfl | rfl | rfl | rfl
      · intro hmem
        simp only [List.mem_append] at hmem
        rcases hmem with (h2 | h2) | h2
        · exact absurd h2 (by decide)
        · have := mem_padded_digits
            (show '\n' ∈ List.replicate (2 - (natToChars (i + 1)).length) '0' ++
              natToChars (i + 1) from h2)
          exact absurd this (by decide)
        · exact absurd h2 (by decide)
      · intro hmem
        simp only [List.mem_append] at hmem
        rcases hmem with (h2 | h2) | h2
        · exact absurd h2 (by decide)
        · exact ht1 h2
        · exact absurd h2 (by decide)
      · intro hmem
        simp only [List.mem_append] at hmem
        rcases hmem with (h2 | h2) | h2
        · exact absurd h2 (by decide)
        · exact ht2 h2
        · exact absurd h2 (by decide)
      · intro hmem
        simp only [timeToFrames, List.mem_append] at hmem
        rcases hmem with h2 | (h2 | h2)
        · exact absurd h2 (by decide)
        · exact GoodTS_not_mem ht3 (by decide) (by decide) h2
        · exact absurd h2 (by decide)
    · exact ih (i + 1) (fun x hx => h x (List.mem_cons_of_mem t hx)) l h1

theorem lines_no_nl (tracks : List Track) (album fn : Str)
    (halbum : '\n' ∉ album) (hfn : '\n' ∉ fn)
    (htracks : ∀ t ∈ tracks, '\n' ∉ t.title ∧ '\n' ∉ t.artist ∧ GoodTS t.timestamp) :
    ∀ l ∈ headerLines album fn ++ blockLinesList 0 tracks, '\n' ∉ l := by
  intro l hl
  rcases List.mem_append.mp hl with h1 | h1
  · simp only [headerLines, List.mem_cons, List.not_mem_nil, or_false] at h1
    rcases h1 with rfl | rfl
    · intro hmem
      simp only [List.mem_append] at hmem
      rcases hmem with (h2 | h2) | h2
      · exact absurd h2 (by decide)
      · exact halbum h2
      · exact absurd h2 (by decide)
    · intro hmem
      simp only [List.mem_append] at hmem
      rcases hmem with (h2 | h2) | h2
      · exact absurd h2 (by decide)
      · exact hfn h2
      · exact absurd h2 (by decide)
  · exact blockLines_no_nl tracks 0 htracks l h1

theorem blockLines_ne_nil : ∀ (ts : List Track) (i : ℕ),
    ∀ l ∈ blockLinesList i ts, l ≠ [] := by
  intro ts
  induction ts with
  | nil =>
    intro i l hl
    simp [blockLinesList] at hl
  | cons t ts ih =>
    intro i l hl
    simp only [blockLinesList] at hl
    rcases List.mem_append.mp hl with h1 | h1
    · simp only [trackLines, List.mem_cons, List.not_mem_nil, or_false] at h1
      rcases h1 with rfl | rfl | rfl | rfl
      · exact List.append_ne_nil_of_left_ne_nil
          (List.append_ne_nil_of_left_ne_nil (by decide) _) _
      · exact List.append_ne_nil_of_left_ne_nil
          (List.append_ne_nil_of_left_ne_nil (by decide) _) _
      · exact List.append_ne_nil_of_left_ne_nil
          (List.append_ne_nil_of_left_ne_nil (by decide) _) _
      · exact List.append_ne_nil_of_left_ne_nil (by decide) _
    · exact ih (i + 1) l h1

theorem lines_ne_nil (tracks : List Track) (album fn : Str) :
    ∀ l ∈ headerLines album fn ++ blockLinesList 0 tracks, l ≠ [] := by
  intro l hl
  rcases List.mem_append.mp hl with h1 | h1
  · simp only [headerLines, List.mem_cons, List.not_mem_nil, or_false] at h1
    rcases h1 with rfl | rfl
    · exact List.append_ne_nil_of_left_ne_nil
        (List.append_ne_nil_of_left_ne_nil (by decide) _) _
    · exact List.append_ne_nil_of_left_ne_nil
        (List.append_ne_nil_of_left_ne_nil (by decide) _) _
  · exact blockLines_ne_nil tracks 0 l h1

theorem not_mem_of_all_digit {x : Char} (hx : x.isDigit = false) {s : Str}
    (h : s.all Char.isDigit = true) : x ∉ s := by
  intro hmem
  rw [List.all_eq_true] at h
  have := h x hmem
  rw [hx] at this
  cases this

theorem parseQuoted_spec {content rem : Str} (h : '"' ∉ content) :
    parseQuoted ('"' :: (content ++ '"' :: rem)) = some (content, rem) := by
  have hall : ∀ x ∈ content, (x != '"') = true := by
    intro x hx
    simp only [bne_iff_ne, ne_eq]
    intro heq
    subst heq
    exact h hx
  have hq : (('"' : Char) != '"') = false := by decide
  simp only [parseQuoted]
  rw [takeWhile_append_all content hall hq, dropWhile_append_all content hall hq]
  rfl

theorem parseTitleLine_header {album : Str} (h : '"' ∉ album) :
    parseTitleLine ((str "TITLE \"" ++ album) ++ str "\"") = some album := by
  have h0 : parseTitleLine ((str "TITLE \"" ++ album) ++ str "\"") =
      (match parseQuoted ('"' :: (album ++ '"' :: [])) with
       | some (content, rem) => if rem = [] then some content else none
       | none => none) := rfl
  rw [h0, parseQuoted_spec h]
  rfl

theorem parseTitleLine_track {title : Str} (h : '"' ∉ title) :
    parseTitleLine ((str "\t\tTITLE \"" ++ title) ++ str "\"") = some title := by
  have h0 : parseTitleLine ((str "\t\tTITLE \"" ++ title) ++ str "\"") =
      (match parseQuoted ('"' :: (title ++ '"' :: [])) with
       | some (content, rem) => if rem = [] then some content else none
       | none => none) := rfl
  rw [h0, parseQuoted_spec h]
  rfl

theorem parsePerformerLine_track {artist : Str} (h : '"' ∉ artist) :
    parsePerformerLine ((str "\t\tPERFORMER \"" ++ artist) ++ str "\"") =
      some artist := by
  have h0 : parsePerformerLine ((str "\t\tPERFORMER \"" ++ artist) ++ str "\"") =
      (match parseQuoted ('"' :: (artist ++ '"' :: [])) with
       | some (content, rem) => if rem = [] then some content else none
       | none => none) := rfl
  rw [h0, parseQuoted_spec h]
  rfl

theorem parseFileLine_spec {fn : Str} (h : '"' ∉ fn) :
    parseFileLine ((str "FILE \"" ++ fn) ++ str "\" MP3") = some fn := by
  have h0 : parseFileLine ((str "FILE \"" ++ fn) ++ str "\" MP3") =
      (match parseQuoted ('"' :: (fn ++ '"' :: str " MP3")) with
       | some (content, _) => some content
       | none => none) := rfl
  rw [h0, parseQuoted_spec h]

theorem parseTrackLine_spec (i : ℕ) :
    parseTrackLine ((str "\tTRACK " ++ jsPadStart (natToChars (i + 1)) 2 '0') ++
      str " AUDIO") = some (i + 1) := by
  have hT : trimStartStr ((str "\tTRACK " ++ jsPadStart (natToChars (i + 1)) 2 '0') ++
      str " AUDIO") =
      str "TRACK " ++ (jsPadStart (natToChars (i + 1)) 2 '0' ++ str " AUDIO") := rfl
  have hpre : (str "TRACK ").isPrefixOf
      (str "TRACK " ++ (jsPadStart (natToChars (i + 1)) 2 '0' ++ str " AUDIO")) = true := by
    rw [List.isPrefixOf_iff_prefix]
    exact List.prefix_append _ _
  have hdrop : (str "TRACK " ++ (jsPadStart (natToChars (i + 1)) 2 '0' ++
      str " AUDIO")).drop 6 = jsPadStart (natToChars (i + 1)) 2 '0' ++ str " AUDIO" :=
    List.drop_left' (by rfl)
  have hall : ∀ x ∈ jsPadStart (natToChars (i + 1)) 2 '0', (x != ' ') = true := by
    intro x hx
    have hd : x.isDigit = true := mem_padded_digits
      (show x ∈ List.replicate (2 - (natToChars (i + 1)).length) '0' ++
        natToChars (i + 1) from hx)
    simp only [bne_iff_ne, ne_eq]
    exact ne_of_isDigit hd (by decide)
  have hsp : ((' ' : Char) != ' ') = false := by decide
  have e : (str " AUDIO" : Str) = ' ' :: str "AUDIO" := rfl
  simp only [parseTrackLine, hT, hpre, if_true, hdrop]
  rw [e, takeWhile_append_all _ hall hsp, dropWhile_append_all _ hall hsp,
    parseNatQ_padStart]
  rfl

theorem GoodTS_split {ts mS sS : Str} (hts : ts = mS ++ ':' :: sS)
    (hm : ':' ∉ mS) (hs : ':' ∉ sS) :
    jsSplit (str ":") ts = [mS, sS] := by
  subst hts
  rw [show (str ":") = [':'] from rfl, jsSplit_single_append hm,
    jsSplit_single_of_not_mem hs]

theorem parseIndexLine_spec {ts : Str} (hts : GoodTS ts) :
    parseIndexLine (str "\t\tINDEX 01 " ++ timeToFrames ts) =
      some ⟨1, ⟨tsMin ts, tsSecF ts, 0⟩⟩ := by
  obtain ⟨mS, sS, hsplit, hmne, hmd, hsne, hsd⟩ := hts
  have hmc : ':' ∉ mS := not_mem_of_all_digit (by decide) hmd
  have hsc : ':' ∉ sS := not_mem_of_all_digit (by decide) hsd
  have h0 : parseIndexLine (str "\t\tINDEX 01 " ++ timeToFrames ts) =
      (match jsSplit (str ":") (ts ++ str ":00") with
       | [mS', sS', fS'] =>
         match parseNatQ mS', parseNatQ sS', parseNatQ fS' with
         | some m, some s, some f => some ⟨1, ⟨m, s, f⟩⟩
         | _, _, _ => none
       | _ => none) := rfl
  have hsplit2 : jsSplit (str ":") (ts ++ str ":00") = [mS, sS, str "00"] := by
    rw [hsplit, show (str ":") = [':'] from rfl,
      show ((mS ++ ':' :: sS) ++ str ":00" : Str) =
        mS ++ ':' :: (sS ++ ':' :: str "00") by
      rw [List.append_assoc, List.cons_append]
      rfl]
    rw [jsSplit_single_append hmc, jsSplit_single_append hsc,
      jsSplit_single_of_not_mem (by decide)]
  have hmin : tsMin ts = valNat mS := by
    simp [tsMin, GoodTS_split hsplit hmc hsc]
  have hsec : tsSecF ts = valNat sS := by
    simp [tsSecF, GoodTS_split hsplit hmc hsc]
  rw [h0, hsplit2]
  simp only [parseNatQ_eq_valNat hmne hmd, parseNatQ_eq_valNat hsne hsd]
  rw [show parseNatQ (str "00") = some 0 by decide]
  rw [hmin, hsec]

theorem parseTrackBlocks_spec : ∀ (ts : List Track) (i : ℕ),
    (∀ t ∈ ts, '"' ∉ t.title ∧ '"' ∉ t.artist ∧ GoodTS t.timestamp) →
    parseTrackBlocks (blockLinesList i ts) = some (parsedFrom i ts) := by
  intro ts
  induction ts with
  | nil => intro i _; rfl
  | cons t ts ih =>
    intro i h
    obtain ⟨ht1, ht2, ht3⟩ := h t (List.mem_cons_self t ts)
    show parseTrackBlocks
      (((str "\tTRACK " ++ jsPadStart (natToChars (i + 1)) 2 '0') ++ str " AUDIO") ::
        ((str "\t\tTITLE \"" ++ t.title) ++ str "\"") ::
        ((str "\t\tPERFORMER \"" ++ t.artist) ++ str "\"") ::
        (str "\t\tINDEX 01 " ++ timeToFrames t.timestamp) ::
        blockLinesList (i + 1) ts) = _
    simp only [parseTrackBlocks]
    rw [parseTrackLine_spec i, parseTitleLine_track ht1, parsePerformerLine_track ht2,
      parseIndexLine_spec ht3, ih (i + 1) (fun x hx => h x (List.mem_cons_of_mem t hx))]
    rfl

theorem cueParserParse_gen (tracks : List Track) (album fn : Str)
    (halbum : GoodText album) (hfn : GoodText fn)
    (htracks : ∀ t ∈ tracks, GoodText t.title ∧ GoodText t.artist ∧ GoodTS t.timestamp) :
    cueParserParse (generateCueFileContent tracks album fn) =
      some ⟨some album, none, [⟨fn, parsedFrom 0 tracks⟩]⟩ := by
  obtain ⟨ha1, ha2⟩ := halbum
  obtain ⟨hf1, hf2⟩ := hfn
  have hnl : ∀ l ∈ headerLines album fn ++ blockLinesList 0 tracks, '\n' ∉ l :=
    lines_no_nl tracks album fn ha2 hf2
      (fun t ht => ⟨(htracks t ht).1.2, (htracks t ht).2.1.2, (htracks t ht).2.2⟩)
  have hlines : (jsSplit (str "\n")
      (generateCueFileContent tracks album fn)).filter (fun l => !l.isEmpty) =
      headerLines album fn ++ blockLinesList 0 tracks := by
    rw [gen_eq_lines, show (str "\n") = ['\n'] from rfl, jsSplit_nl_joinNl _ hnl,
      filter_nonempty_lines _ (lines_ne_nil tracks album fn)]
  simp only [cueParserParse, hlines, headerLines, List.cons_append, List.nil_append]
  rw [parseTitleLine_header ha1, parseFileLine_spec hf1,
    parseTrackBlocks_spec tracks 0
      (fun t ht => ⟨(htracks t ht).1.1, (htracks t ht).2.1.1, (htracks t ht).2.2⟩)]

theorem cueTimeToSeconds_zero_frame (m s : ℕ) :
    cueTimeToSeconds ⟨m, s, 0⟩ = (m : ℚ) * 60 + (s : ℚ) := by
  simp [cueTimeToSeconds]

theorem cueTime_tsSeconds (ts : Str) :
    cueTimeToSeconds ⟨tsMin ts, tsSecF ts, 0⟩ = tsSeconds ts := by
  rw [cueTimeToSeconds_zero_frame, tsSeconds]

theorem cueTracksFrom_start_mem : ∀ (ts : List Track) (i : ℕ) (y : CueTrack),
    y ∈ cueTracksFrom i ts →
    ∃ t ∈ ts, y.startTimeSeconds = tsSeconds t.timestamp := by
  intro ts
  induction ts with
  | nil =>
    intro i y hy
    simp [cueTracksFrom] at hy
  | cons t ts ih =>
    intro i y hy
    rcases List.mem_cons.mp hy with rfl | hy'
    · exact ⟨t, List.mem_cons_self t ts, cueTime_tsSeconds t.timestamp⟩
    · obtain ⟨t', ht', heq⟩ := ih (i + 1) y hy'
      exact ⟨t', List.mem_cons_of_mem t ht', heq⟩

theorem sorted_cueTracksFrom : ∀ (ts : List Track) (i : ℕ),
    List.Pairwise (fun a b : Track =>
      tsSeconds a.timestamp ≤ tsSeconds b.timestamp) ts →
    List.Sorted trackLE (cueTracksFrom i ts) := by
  intro ts
  induction ts with
  | nil => intro i _; simp [cueTracksFrom, List.Sorted]
  | cons t ts ih =>
    intro i h
    rw [List.pairwise_cons] at h
    obtain ⟨hhead, htail⟩ := h
    rw [cueTracksFrom, List.Sorted, List.pairwise_cons]
    refine ⟨fun y hy => ?_, ih (i + 1) htail⟩
    obtain ⟨t', ht', heq⟩ := cueTracksFrom_start_mem ts (i + 1) y hy
    show cueTimeToSeconds ⟨tsMin t.timestamp, tsSecF t.timestamp, 0⟩ ≤
      y.startTimeSeconds
    rw [cueTime_tsSeconds, heq]
    exact hhead t' ht'

theorem cueTracksFrom_map_number : ∀ (ts : List Track) (i : ℕ),
    (cueTracksFrom i ts).map CueTrack.trackNumber = List.range' (i + 1) ts.length := by
  intro ts
  induction ts with
  | nil => intro i; rfl
  | cons t ts ih =>
    intro i
    simp only [cueTracksFrom, List.map_cons, List.length_cons, List.range'_succ, ih]

theorem cueTracksFrom_map_title : ∀ (ts : List Track) (i : ℕ),
    (cueTracksFrom i ts).map CueTrack.title = ts.map (fun t => some t.title) := by
  intro ts
  induction ts with
  | nil => intro i; rfl
  | cons t ts ih =>
    intro i
    simp only [cueTracksFrom, List.map_cons, ih]

theorem cueTracksFrom_map_performer : ∀ (ts : List Track) (i : ℕ),
    (∀ t ∈ ts, t.artist ≠ []) →
    (cueTracksFrom i ts).map CueTrack.performer = ts.map Track.artist := by
  intro ts
  induction ts with
  | nil => intro i _; rfl
  | cons t ts ih =>
    intro i h
    simp only [cueTracksFrom, List.map_cons,
      ih (i + 1) (fun x hx => h x (List.mem_cons_of_mem t hx))]
    congr 1
    simp [jsOrStr, h t (List.mem_cons_self t ts)]

theorem cueTracksFrom_map_start : ∀ (ts : List Track) (i : ℕ),
    (cueTracksFrom i ts).map CueTrack.startTimeSeconds =
      ts.map (fun t => tsSeconds t.timestamp) := by
  intro ts
  induction ts with
  | nil => intro i; rfl
  | cons t ts ih =>
    intro i
    simp only [cueTracksFrom, List.map_cons, ih, cueTime_tsSeconds]

theorem cueTracksFrom_length : ∀ (ts : List Track) (i : ℕ),
    (cueTracksFrom i ts).length = ts.length := by
  intro ts
  induction ts with
  | nil => intro i; rfl
  | cons t ts ih =>
    intro i
    simp only [cueTracksFrom, List.length_cons, ih]

theorem filterMap_parsedFrom : ∀ (ts : List Track) (i : ℕ),
    (parsedFrom i ts).filterMap (fun track =>
      match track.indexes.find? (fun idx => idx.number == 1) with
      | none => none
      | some index01 =>
        some { trackNumber := track.number
               trackName := track.title
               title := track.title
               performer := jsOrStr track.performer (str "Unknown Artist")
               startTimeSeconds := cueTimeToSeconds index01.time }) =
    cueTracksFrom i ts := by
  intro ts
  induction ts with
  | nil => intro i; rfl
  | cons t ts ih =>
    intro i
    simp only [parsedFrom, List.filterMap_cons]
    rw [ih (i + 1)]
    rfl

/-- C4 (amended): serializing a non-empty sequence of track records whose
titles and artists contain no quote or newline, whose artists are
non-empty, whose timestamps are well-formed `MM:SS`, and whose timestamps
are in chronological order, and then parsing the text back through the
CUE parsing adapter, yields exactly one `CueTrackEntry` per record, with
contiguous track numbers `1..N`, the titles and artists preserved, and
the start times (the converted timestamps) in the original order. -/
theorem claim_C4_roundtrip (tracks : List Track) (album fn : Str)
    (hne : tracks ≠ [])
    (htracks : ∀ t ∈ tracks,
      GoodText t.title ∧ GoodText t.artist ∧ t.artist ≠ [] ∧ GoodTS t.timestamp)
    (halbum : GoodText album) (hfn : GoodText fn)
    (hsorted : List.Pairwise (fun a b : Track =>
      tsSeconds a.timestamp ≤ tsSeconds b.timestamp) tracks) :
    ∃ r, parseCueFileText (generateCueFileContent tracks album fn) = .ok r ∧
      r.tracks.length = tracks.length ∧
      r.tracks.map CueTrack.trackNumber = List.range' 1 tracks.length ∧
      r.tracks.map CueTrack.title = tracks.map (fun t => some t.title) ∧
      r.tracks.map CueTrack.performer = tracks.map Track.artist ∧
      r.tracks.map CueTrack.startTimeSeconds =
        tracks.map (fun t => tsSeconds t.timestamp) := by
  refine ⟨⟨some album, none, fn, cueTracksFrom 0 tracks⟩, ?_, cueTracksFrom_length tracks 0,
    cueTracksFrom_map_number tracks 0, cueTracksFrom_map_title tracks 0,
    cueTracksFrom_map_performer tracks 0 (fun t ht => (htracks t ht).2.2.1),
    cueTracksFrom_map_start tracks 0⟩
  unfold parseCueFileText
  rw [cueParserParse_gen tracks album fn halbum hfn
    (fun t ht => ⟨(htracks t ht).1, (htracks t ht).2.1, (htracks t ht).2.2.2⟩)]
  have hpne : parsedFrom 0 tracks ≠ [] := by
    cases tracks with
    | nil => exact absurd rfl hne
    | cons a l => simp [parsedFrom]
  simp only [parseCueSheet, if_neg hpne]
  rw [filterMap_parsedFrom,
    List.Sorted.insertionSort_eq (sorted_cueTracksFrom tracks 0 hsorted)]

/-- C4 counterexample: a single record with an EMPTY artist serializes to
`PERFORMER ""`, and parsing back yields performer `"Unknown Artist"` (the
adapter's `track.performer || 'Unknown Artist'` treats the empty string
as falsy), so the performer does NOT equal the original record's
artist. -/
theorem claim_C4_counterexample :
    (parseCueFileText (generateCueFileContent [⟨str "00:00", [], str "T"⟩]
        (str "M") (str "a.mp3"))).toOption.map
      (fun r => r.tracks.map CueTrack.performer) = some [str "Unknown Artist"] ∧
    str "Unknown Artist" ≠ ([] : Str) :=
  ⟨rfl, by decide⟩

theorem claim_C4_witness :
    ∃ r, parseCueFileText (generateCueFileContent
        [⟨str "00:00", str "A", str "T1"⟩, ⟨str "03:45", str "B", str "T2"⟩]
        (str "Mix") (str "audio.mp3")) = .ok r ∧
      r.tracks.length =
        ([⟨str "00:00", str "A", str "T1"⟩,
          ⟨str "03:45", str "B", str "T2"⟩] : List Track).length ∧
      r.tracks.map CueTrack.trackNumber =
        List.range' 1 ([⟨str "00:00", str "A", str "T1"⟩,
          ⟨str "03:45", str "B", str "T2"⟩] : List Track).length ∧
      r.tracks.map CueTrack.title =
        ([⟨str "00:00", str "A", str "T1"⟩,
          ⟨str "03:45", str "B", str "T2"⟩] : List Track).map
          (fun t => some t.title) ∧
      r.tracks.map CueTrack.performer =
        ([⟨str "00:00", str "A", str "T1"⟩,
          ⟨str "03:45", str "B", str "T2"⟩] : List Track).map Track.artist ∧
      r.tracks.map CueTrack.startTimeSeconds =
        ([⟨str "00:00", str "A", str "T1"⟩,
          ⟨str "03:45", str "B", str "T2"⟩] : List Track).map
          (fun t => tsSeconds t.timestamp) :=
  claim_C4_roundtrip
    [⟨str "00:00", str "A", str "T1"⟩, ⟨str "03:45", str "B", str "T2"⟩]
    (str "Mix") (str "audio.mp3")
    (by decide)
    (by
      intro t ht
      simp only [List.mem_cons, List.not_mem_nil, or_false] at ht
      rcases ht with rfl | rfl
      · exact ⟨⟨by decide, by decide⟩, ⟨by decide, by decide⟩, by decide,
          str "00", str "00", rfl, by decide, by decide, by decide, by decide⟩
      · exact ⟨⟨by decide, by decide⟩, ⟨by decide, by decide⟩, by decide,
          str "03", str "45", rfl, by decide, by decide, by decide, by decide⟩)
    ⟨by decide, by decide⟩ ⟨by decide, by decide⟩
    (by
      rw [List.pairwise_cons]
      refine ⟨?_, by simp⟩
      intro t ht
      simp only [List.mem_cons, List.not_mem_nil, or_false] at ht
      subst ht
      show tsSeconds (str "00:00") ≤ tsSeconds (str "03:45")
      with_unfolding_all decide)
